import Mathlib

set_option linter.unusedSectionVars false

/-!
# Verification of the dual-structure concurrent map (src/go/src/sync/map.go)

Shallow embedding of the `sync.Map` algorithm under a sequential
(linearized) semantics: every public operation runs to completion before
the next one starts, so the double-check re-loads of `m.read` that the Go
code performs after acquiring the mutex observe the same state as the
first load and are collapsed in the embedding (noted at each use site).

Entry slots (`entry.p` in the source) are modelled as an explicit heap:
a list of `EntryP` values indexed by natural-number references; `newEntry`
allocates by appending.  Both the read snapshot's mapping and the dirty
map are association lists of (key, entry-reference) pairs, so an entry is
shared by reference between the two structures exactly as in the source.

A Go `map` that is `nil` reads as empty but panics on assignment, so the
dirty map is an `Option` of an association list and the two operations
that can assign into it (`Store`, `LoadOrStore`) return `Option` states:
`none` models the (unreachable) nil-map-assignment panic.
-/

namespace SyncMap

/-- State of one entry slot (the `entry.p` pointer in map.go): `nil` marks
an entry deleted while it can still be in the dirty map, `expunged` marks
an entry deleted and guaranteed absent from the dirty map, `val v` holds a
present value. -/
inductive EntryP (V : Type) where
  | nil : EntryP V
  | expunged : EntryP V
  | val : V → EntryP V
deriving DecidableEq

/-- The immutable snapshot stored atomically in `Map.read` (struct
`readOnly` in map.go): an association of keys to entry references plus the
`amended` flag.  The zero value (type assertion on an empty
`atomic.Value`) has a nil mapping, modelled by the empty list. -/
structure readOnly (K : Type) where
  m : List (K × Nat)
  amended : Bool
deriving DecidableEq

/-- The state of one `sync.Map` (struct `Map` in map.go) together with the
heap of entry slots.  `dirty = none` models a nil dirty map. The mutex is
not represented: under the sequential semantics every critical section is
uninterrupted. -/
structure Map (K V : Type) where
  read : readOnly K
  dirty : Option (List (K × Nat))
  misses : Nat
  heap : List (EntryP V)
deriving DecidableEq

variable {K V : Type} [DecidableEq K] [DecidableEq V]

/-- Lookup in a Go map modelled as an association list: the first pair
with the given key (keys are kept unique by construction). -/
def lookupA : List (K × Nat) → K → Option Nat
  | [], _ => none
  | (k', r) :: rest, k => if k' = k then some r else lookupA rest k

/-- Go map assignment `m[k] = r`: replace the binding if the key is
present, otherwise append it. -/
def insertA : List (K × Nat) → K → Nat → List (K × Nat)
  | [], k, r => [(k, r)]
  | (k', r') :: rest, k, r =>
      if k' = k then (k, r) :: rest else (k', r') :: insertA rest k r

/-- Go `delete(m, k)`: remove every binding of the key. -/
def deleteA : List (K × Nat) → K → List (K × Nat)
  | [], _ => []
  | (k', r') :: rest, k =>
      if k' = k then deleteA rest k else (k', r') :: deleteA rest k

/-- Atomic load of an entry slot.  Dereferencing a reference outside the
heap yields `nil`; the invariant proves references stay in range. -/
def heapAt (h : List (EntryP V)) (r : Nat) : EntryP V :=
  h.getD r .nil

/-- The dirty map's contents, reading a nil dirty map as empty (legal on
the Go read paths). -/
def dirtyD (s : Map K V) : List (K × Nat) :=
  s.dirty.getD []

/-- `len(m.dirty)` — zero when the dirty map is nil. -/
def dirtySize (s : Map K V) : Nat :=
  (s.dirty.getD []).length

/-- Lookup `m.dirty[key]` — misses when the dirty map is nil. -/
def lookupD (d : Option (List (K × Nat))) (k : K) : Option Nat :=
  match d with
  | none => none
  | some l => lookupA l k

/-- `entry.load` (map.go:141-149): found iff the slot holds a value. -/
def entryLoad (h : List (EntryP V)) (r : Nat) : Option V × Bool :=
  match heapAt h r with
  | .val v => (some v, true)
  | _ => (none, false)

/-- `entry.tryLoadOrStore` (map.go:278-303): on `expunged` fail with
ok = false and leave the heap unchanged; on a present value return it
with loaded = true; on `nil` store the candidate (the CAS succeeds at
once under the sequential semantics) and return it with loaded = false. -/
def tryLoadOrStore (h : List (EntryP V)) (r : Nat) (v : V) :
    (Option V × Bool × Bool) × List (EntryP V) :=
  match heapAt h r with
  | .expunged => ((none, false, false), h)
  | .val w => ((some w, true, true), h)
  | .nil => ((some v, false, true), h.set r (.val v))

/-- `Map.missLocked` (map.go:383-400): count the miss; once the count
reaches the dirty map's size, promote the dirty map to the read snapshot
(amended implicitly false), null the dirty map and reset the counter. -/
def missLocked (s : Map K V) : Map K V :=
  let misses := s.misses + 1
  if misses < dirtySize s then
    { s with misses := misses }
  else
    { read := ⟨s.dirty.getD [], false⟩, dirty := none, misses := 0,
      heap := s.heap }

/-- The loop body of `Map.dirtyLocked` (map.go:410-416) over the read
snapshot's pairs: an entry observed `nil` is expunged
(`entry.tryExpungeLocked`, map.go:419-428) and skipped, an entry observed
`expunged` is skipped, an entry holding a value is copied into the new
dirty map.  Returns the updated heap and the new dirty association. -/
def dirtyFold : List (EntryP V) → List (K × Nat) →
    List (EntryP V) × List (K × Nat)
  | h, [] => (h, [])
  | h, (k, r) :: rest =>
      match heapAt h r with
      | .nil => dirtyFold (h.set r .expunged) rest
      | .expunged => dirtyFold h rest
      | .val _ =>
          let res := dirtyFold h rest
          (res.1, (k, r) :: res.2)

/-- `Map.dirtyLocked` (map.go:402-417): a no-op when the dirty map is
already non-nil, otherwise rebuild it from the read snapshot, expunging
entries observed deleted. -/
def dirtyLocked (s : Map K V) : Map K V :=
  match s.dirty with
  | some _ => s
  | none =>
      let res := dirtyFold s.heap s.read.m
      { s with heap := res.1, dirty := some res.2 }

/-- `Map.Load` (map.go:102-138).  The locked double-check re-load of
`m.read` observes the same state sequentially and is collapsed. -/
def Load (s : Map K V) (k : K) : (Option V × Bool) × Map K V :=
  match lookupA s.read.m k with
  | some r => (entryLoad s.heap r, s)
  | none =>
      if s.read.amended then
        -- mutex acquired; double-check finds the same absence, so the
        -- dirty map is consulted and a miss is recorded either way
        let eo := lookupD s.dirty k
        let s1 := missLocked s
        match eo with
        | some r => (entryLoad s1.heap r, s1)
        | none => ((none, false), s1)
      else ((none, false), s)

/-- The mutex-held part of `Map.Store` (map.go:160-198), reached when the
lock-free `tryStore` failed (entry expunged) or the key was absent from
the read snapshot.  The double-check re-load of `m.read` is collapsed.
`none` models the Go panic of assigning into a nil dirty map. -/
def storeSlow (s : Map K V) (k : K) (v : V) : Option (Map K V) :=
  match lookupA s.read.m k with
  | some r =>
      match heapAt s.heap r with
      | .expunged =>
          -- unexpungeLocked fires: entry must be re-added to the dirty map
          match s.dirty with
          | none => none
          | some d =>
              let s1 := { s with heap := s.heap.set r .nil,
                                 dirty := some (insertA d k r) }
              -- storeLocked
              some { s1 with heap := s1.heap.set r (.val v) }
      | _ =>
          -- unexpungeLocked does not fire; storeLocked
          some { s with heap := s.heap.set r (.val v) }
  | none =>
      match lookupD s.dirty k with
      | some r =>
          -- present in the dirty map: storeLocked
          some { s with heap := s.heap.set r (.val v) }
      | none =>
          -- wholly new key
          let s1 := if s.read.amended then s
            else
              -- first new key: build the dirty map, publish amended
              let s2 := dirtyLocked s
              { s2 with read := ⟨s2.read.m, true⟩ }
          match s1.dirty with
          | none => none
          | some d =>
              -- m.dirty[key] = newEntry(value)
              some { s1 with dirty := some (insertA d k s1.heap.length),
                             heap := s1.heap ++ [.val v] }

/-- `Map.Store` (map.go:152-199): lock-free `tryStore` on an entry found
in the read snapshot (fails only on `expunged`), otherwise the locked
path. -/
def Store (s : Map K V) (k : K) (v : V) : Option (Map K V) :=
  match lookupA s.read.m k with
  | some r =>
      match heapAt s.heap r with
      | .expunged => storeSlow s k v
      | _ => some { s with heap := s.heap.set r (.val v) }
  | none => storeSlow s k v

/-- The mutex-held part of `Map.LoadOrStore` (map.go:248-268), with the
double-check re-load collapsed.  `none` models the nil-dirty-map
assignment panic. -/
def loadOrStoreSlow (s : Map K V) (k : K) (v : V) :
    Option ((Option V × Bool) × Map K V) :=
  match lookupA s.read.m k with
  | some r =>
      match heapAt s.heap r with
      | .expunged =>
          -- unexpungeLocked fires, entry re-added to the dirty map, then
          -- tryLoadOrStore on the now-nil entry stores the value
          match s.dirty with
          | none => none
          | some d =>
              let s1 := { s with heap := s.heap.set r .nil,
                                 dirty := some (insertA d k r) }
              let t := tryLoadOrStore s1.heap r v
              some ((t.1.1, t.1.2.1), { s1 with heap := t.2 })
      | _ =>
          let t := tryLoadOrStore s.heap r v
          some ((t.1.1, t.1.2.1), { s with heap := t.2 })
  | none =>
      match lookupD s.dirty k with
      | some r =>
          -- found in the dirty map: tryLoadOrStore, then record a miss
          let t := tryLoadOrStore s.heap r v
          some ((t.1.1, t.1.2.1), missLocked { s with heap := t.2 })
      | none =>
          let s1 := if s.read.amended then s
            else
              let s2 := dirtyLocked s
              { s2 with read := ⟨s2.read.m, true⟩ }
          match s1.dirty with
          | none => none
          | some d =>
              some ((some v, false),
                { s1 with dirty := some (insertA d k s1.heap.length),
                          heap := s1.heap ++ [.val v] })

/-- `Map.LoadOrStore` (map.go:238-271): lock-free `tryLoadOrStore` on an
entry found in the read snapshot; on ok = false (entry expunged, heap
unchanged) fall to the locked path. -/
def LoadOrStore (s : Map K V) (k : K) (v : V) :
    Option ((Option V × Bool) × Map K V) :=
  match lookupA s.read.m k with
  | some r =>
      let t := tryLoadOrStore s.heap r v
      if t.1.2.2 then some ((t.1.1, t.1.2.1), { s with heap := t.2 })
      else loadOrStoreSlow s k v
  | none => loadOrStoreSlow s k v

/-- `Map.Delete` (map.go:306-325) with `entry.delete` (map.go:327-337):
a key found in the read snapshot has its entry CASed from a value to
`nil` (no-op on `nil`/`expunged`); a key absent from an amended snapshot
is removed from the dirty map under the mutex (double-check collapsed;
`delete` on a nil Go map is a legal no-op). -/
def Delete (s : Map K V) (k : K) : Map K V :=
  match lookupA s.read.m k with
  | some r =>
      match heapAt s.heap r with
      | .val _ => { s with heap := s.heap.set r .nil }
      | _ => s
  | none =>
      if s.read.amended then
        { s with dirty := s.dirty.map (fun d => deleteA d k) }
      else s

/-- The iteration loop of `Map.Range` (map.go:371-379): visit each pair
whose entry holds a value (the pair on which the visitor returns `false`
is still visited, then iteration stops), skip deleted/expunged entries.
Returns the list of visited (key, value) pairs in order. -/
def rangeIter (h : List (EntryP V)) (f : K → V → Bool) :
    List (K × Nat) → List (K × V)
  | [] => []
  | (k, r) :: rest =>
      match heapAt h r with
      | .val v => if f k v then (k, v) :: rangeIter h f rest else [(k, v)]
      | _ => rangeIter h f rest

/-- `Map.Range` (map.go:349-380): when the snapshot is amended, promote
the dirty map first (double-check collapsed), then iterate the resulting
snapshot.  Returns the visited pairs and the final state. -/
def Range (s : Map K V) (f : K → V → Bool) : List (K × V) × Map K V :=
  let s1 := if s.read.amended then
      { read := ⟨s.dirty.getD [], false⟩, dirty := none, misses := 0,
        heap := s.heap }
    else s
  (rangeIter s1.heap f s1.read.m, s1)

/-- One public operation of the API, the visitor of `range` being a pure
predicate (a visitor that mutates the map is outside the sequential
semantics). -/
inductive Op (K V : Type) where
  | store (k : K) (v : V)
  | load (k : K)
  | delete (k : K)
  | loadOrStore (k : K) (v : V)
  | range (f : K → V → Bool)

/-- Effect of one operation on the map state (`none` models the
nil-dirty-map assignment panic, which the invariant proves unreachable). -/
def runOp (s : Map K V) : Op K V → Option (Map K V)
  | .store k v => Store s k v
  | .load k => some (Load s k).2
  | .delete k => some (Delete s k)
  | .loadOrStore k v => (LoadOrStore s k v).map (·.2)
  | .range f => some (Range s f).2

/-- Run a sequence of operations. -/
def runTrace (s : Map K V) : List (Op K V) → Option (Map K V)
  | [] => some s
  | op :: rest =>
      match runOp s op with
      | none => none
      | some s' => runTrace s' rest

/-- The zero `sync.Map`: empty snapshot (nil mapping, amended false), nil
dirty map, zero misses, no entries. -/
def initState : Map K V :=
  { read := ⟨[], false⟩, dirty := none, misses := 0, heap := [] }

/-- A state is reachable when some sequence of public operations produces
it from the zero map. -/
def Reachable (s : Map K V) : Prop :=
  ∃ tr : List (Op K V), runTrace initState tr = some s

/-- The value held by an entry slot, if any. -/
def heapVal (h : List (EntryP V)) (r : Nat) : Option V :=
  match heapAt h r with
  | .val v => some v
  | _ => none

/-- Logical contents of the map: the dirty map when it exists (it then
supersedes the snapshot), otherwise the read snapshot. -/
def mget (s : Map K V) (k : K) : Option V :=
  match s.dirty with
  | some d => (lookupA d k).bind (heapVal s.heap)
  | none => (lookupA s.read.m k).bind (heapVal s.heap)

/-- Whether a slot holds a value. -/
def isVal : EntryP V → Bool
  | .val _ => true
  | _ => false

/-- The (key, value) pairs of an association whose entries hold values,
in association order — the pairs `Range` offers to its visitor. -/
def presentPairs (h : List (EntryP V)) : List (K × Nat) → List (K × V)
  | [] => []
  | (k, r) :: rest =>
      match heapAt h r with
      | .val v => (k, v) :: presentPairs h rest
      | _ => presentPairs h rest

/-- Modelled from the spec's words for the iteration contract of §4.6
(comparison definition for the refinement claim about `Range`): call the
visitor on each offered pair in order and stop right after the first
`false` answer. -/
def specVisit (f : K → V → Bool) : List (K × V) → List (K × V)
  | [] => []
  | (k, v) :: rest =>
      if f k v then (k, v) :: specVisit f rest else [(k, v)]

/-- The state invariant maintained by every public operation:
amended ↔ dirty map exists; entry references stay inside the heap; keys
are unique in both associations; distinct keys never share an entry
(within a structure); the dirty map holds no expunged entry; when the
dirty map exists it agrees with the snapshot on every snapshot key (live
entries shared under the same reference, expunged entries absent); when
it does not exist, no snapshot entry is expunged. -/
def Inv (s : Map K V) : Prop :=
  s.read.amended = s.dirty.isSome ∧
  (∀ p ∈ s.read.m, p.2 < s.heap.length) ∧
  (∀ p ∈ dirtyD s, p.2 < s.heap.length) ∧
  (s.read.m.map Prod.fst).Nodup ∧
  ((dirtyD s).map Prod.fst).Nodup ∧
  (∀ p ∈ s.read.m, ∀ q ∈ s.read.m, p.2 = q.2 → p.1 = q.1) ∧
  (∀ p ∈ dirtyD s, ∀ q ∈ dirtyD s, p.2 = q.2 → p.1 = q.1) ∧
  (∀ p ∈ dirtyD s, heapAt s.heap p.2 ≠ .expunged) ∧
  (s.dirty.isSome = true → ∀ p ∈ s.read.m,
      (heapAt s.heap p.2 ≠ .expunged → lookupA (dirtyD s) p.1 = some p.2) ∧
      (heapAt s.heap p.2 = .expunged → lookupA (dirtyD s) p.1 = none)) ∧
  (s.dirty.isSome = false → ∀ p ∈ s.read.m, heapAt s.heap p.2 ≠ .expunged)

end SyncMap

namespace SyncMap

variable {K V : Type} [DecidableEq K] [DecidableEq V]

instance (s : Map K V) : Decidable (Inv s) := by
  unfold Inv; infer_instance

theorem lookupA_eq_none {l : List (K × Nat)} {k : K} :
    lookupA l k = none ↔ k ∉ l.map Prod.fst := by
  induction l with
  | nil => simp [lookupA]
  | cons p rest ih =>
      obtain ⟨k', r⟩ := p
      by_cases h : k' = k
      · subst h
        simp [lookupA]
      · have hstep : lookupA ((k', r) :: rest) k = lookupA rest k := by
          simp [lookupA, h]
        rw [hstep, ih, List.map_cons]
        simp only [List.mem_cons]
        constructor
        · intro hn hc
          rcases hc with he | hm
          · exact h he.symm
          · exact hn hm
        · intro hn hm
          exact hn (Or.inr hm)

theorem mem_of_lookupA {l : List (K × Nat)} {k : K} {r : Nat}
    (h : lookupA l k = some r) : (k, r) ∈ l := by
  induction l with
  | nil => simp [lookupA] at h
  | cons p rest ih =>
      obtain ⟨k', r'⟩ := p
      by_cases hk : k' = k
      · subst hk
        simp [lookupA] at h
        simp [h]
      · simp [lookupA, hk] at h
        exact List.mem_cons_of_mem _ (ih h)

theorem lookupA_of_mem {l : List (K × Nat)}
    (hn : (l.map Prod.fst).Nodup) {p : K × Nat} (hp : p ∈ l) :
    lookupA l p.1 = some p.2 := by
  induction l with
  | nil => simp at hp
  | cons q rest ih =>
      obtain ⟨k', r'⟩ := q
      simp only [List.map_cons, List.nodup_cons] at hn
      rcases List.mem_cons.mp hp with h | h
      · subst h
        simp [lookupA]
      · have hne : k' ≠ p.1 := by
          intro he
          exact hn.1 (he ▸ (List.mem_map.mpr ⟨p, h, rfl⟩))
        simp [lookupA, hne]
        exact ih hn.2 h

theorem insertA_of_lookup_none {l : List (K × Nat)} {k : K}
    (h : lookupA l k = none) (r : Nat) : insertA l k r = l ++ [(k, r)] := by
  induction l with
  | nil => simp [insertA]
  | cons p rest ih =>
      obtain ⟨k', r'⟩ := p
      by_cases hk : k' = k
      · simp [lookupA, hk] at h
      · simp [lookupA, hk] at h
        simp [insertA, hk, ih h]

theorem lookupA_append_left {l1 l2 : List (K × Nat)} {k : K} {r : Nat}
    (h : lookupA l1 k = some r) : lookupA (l1 ++ l2) k = some r := by
  induction l1 with
  | nil => simp [lookupA] at h
  | cons p rest ih =>
      obtain ⟨k', r'⟩ := p
      by_cases hk : k' = k
      · simp [lookupA, hk] at h ⊢
        exact h
      · simp [lookupA, hk] at h ⊢
        exact ih h

theorem lookupA_append_none {l1 l2 : List (K × Nat)} {k : K}
    (h : lookupA l1 k = none) : lookupA (l1 ++ l2) k = lookupA l2 k := by
  induction l1 with
  | nil => simp [lookupA]
  | cons p rest ih =>
      obtain ⟨k', r'⟩ := p
      by_cases hk : k' = k
      · simp [lookupA, hk] at h
      · simp [lookupA, hk] at h ⊢
        exact ih h

theorem deleteA_sublist (l : List (K × Nat)) (k : K) :
    List.Sublist (deleteA l k) l := by
  induction l with
  | nil => simp [deleteA]
  | cons p rest ih =>
      obtain ⟨k', r'⟩ := p
      by_cases hk : k' = k
      · simpa [deleteA, hk] using ih.cons _
      · simpa [deleteA, hk] using ih.cons₂ (k', r')

theorem lookupA_deleteA_self (l : List (K × Nat)) (k : K) :
    lookupA (deleteA l k) k = none := by
  induction l with
  | nil => simp [deleteA, lookupA]
  | cons p rest ih =>
      obtain ⟨k', r'⟩ := p
      by_cases hk : k' = k
      · simpa [deleteA, hk] using ih
      · simpa [deleteA, lookupA, hk] using ih

theorem lookupA_deleteA_ne {l : List (K × Nat)} {k k' : K} (h : k' ≠ k) :
    lookupA (deleteA l k) k' = lookupA l k' := by
  induction l with
  | nil => simp [deleteA]
  | cons p rest ih =>
      obtain ⟨k'', r''⟩ := p
      by_cases hk : k'' = k
      · subst hk
        have hne : ¬k'' = k' := fun he => h he.symm
        simp [deleteA, lookupA, hne, ih]
      · by_cases hk2 : k'' = k'
        · subst hk2
          simp [deleteA, lookupA, hk]
        · simp [deleteA, lookupA, hk, hk2, ih]

theorem heapAt_ge {h : List (EntryP V)} {r : Nat} (hr : h.length ≤ r) :
    heapAt h r = .nil := by
  simp [heapAt, List.getD_eq_getElem?_getD, List.getElem?_eq_none hr]

theorem heapAt_set (h : List (EntryP V)) (r' r : Nat) (x : EntryP V) :
    heapAt (h.set r' x) r =
      if r' = r ∧ r' < h.length then x else heapAt h r := by
  by_cases he : r' = r
  · subst he
    by_cases hlt : r' < h.length
    · simp [heapAt, List.getD_eq_getElem?_getD, List.getElem?_set_self hlt,
        hlt]
    · simp [heapAt, hlt, List.set_eq_of_length_le (Nat.le_of_not_lt hlt)]
  · simp [heapAt, List.getD_eq_getElem?_getD, List.getElem?_set_ne he, he]

theorem heapAt_set_nil_self (h : List (EntryP V)) (r : Nat) :
    heapAt (h.set r .nil) r = .nil := by
  rw [heapAt_set]
  by_cases hlt : r < h.length
  · simp [hlt]
  · simp [hlt, heapAt_ge (Nat.le_of_not_lt hlt)]

theorem heapAt_append_lt {h l2 : List (EntryP V)} {r : Nat}
    (hr : r < h.length) : heapAt (h ++ l2) r = heapAt h r := by
  simp [heapAt, List.getD_eq_getElem?_getD, List.getElem?_append, hr]

theorem heapAt_append_self (h : List (EntryP V)) (x : EntryP V) :
    heapAt (h ++ [x]) h.length = x := by
  simp [heapAt, List.getD_eq_getElem?_getD,
    List.getElem?_append_right (Nat.le_refl _)]

end SyncMap

namespace SyncMap

variable {K V : Type} [DecidableEq K] [DecidableEq V]

theorem dirtyFold_fst_length (h : List (EntryP V)) (l : List (K × Nat)) :
    (dirtyFold h l).1.length = h.length := by
  induction l generalizing h with
  | nil => simp [dirtyFold]
  | cons p rest ih =>
      obtain ⟨k, r⟩ := p
      cases he : heapAt h r with
      | nil => simp [dirtyFold, he, ih, List.length_set]
      | expunged => simp [dirtyFold, he, ih]
      | val v => simp [dirtyFold, he, ih]

theorem dirtyFold_snd_sublist (h : List (EntryP V)) (l : List (K × Nat)) :
    List.Sublist (dirtyFold h l).2 l := by
  induction l generalizing h with
  | nil => simp [dirtyFold]
  | cons p rest ih =>
      obtain ⟨k, r⟩ := p
      cases he : heapAt h r with
      | nil => simpa [dirtyFold, he] using (ih _).cons (k, r)
      | expunged => simpa [dirtyFold, he] using (ih h).cons (k, r)
      | val v => simpa [dirtyFold, he] using (ih h).cons₂ (k, r)

theorem dirtyFold_heapAt (h : List (EntryP V)) (l : List (K × Nat))
    (hv : ∀ p ∈ l, p.2 < h.length) (r : Nat) :
    heapAt (dirtyFold h l).1 r =
      if heapAt h r = .nil ∧ r ∈ l.map Prod.snd then .expunged
      else heapAt h r := by
  induction l generalizing h with
  | nil => simp [dirtyFold]
  | cons p rest ih =>
      obtain ⟨k, r'⟩ := p
      have hr' : r' < h.length := hv (k, r') (List.mem_cons_self _ _)
      cases he : heapAt h r' with
      | nil =>
          have hstep : dirtyFold h ((k, r') :: rest) =
              dirtyFold (h.set r' .expunged) rest := by
            simp [dirtyFold, he]
          have hv2 : ∀ p ∈ rest, p.2 < (h.set r' .expunged).length := by
            intro p hp
            rw [List.length_set]
            exact hv p (List.mem_cons_of_mem _ hp)
          rw [hstep, ih _ hv2]
          by_cases hrr : r = r'
          · subst hrr
            rw [heapAt_set]
            simp [hr', he]
          · rw [heapAt_set]
            have hne : ¬(r' = r ∧ r' < h.length) := fun hc => hrr hc.1.symm
            rw [if_neg hne]
            simp only [List.map_cons, List.mem_cons, hrr, false_or]
      | expunged =>
          have hstep : dirtyFold h ((k, r') :: rest) = dirtyFold h rest := by
            simp [dirtyFold, he]
          have hv2 : ∀ p ∈ rest, p.2 < h.length :=
            fun p hp => hv p (List.mem_cons_of_mem _ hp)
          rw [hstep, ih _ hv2]
          by_cases hrr : r = r'
          · subst hrr
            simp [he]
          · simp only [List.map_cons, List.mem_cons, hrr, false_or]
      | val v =>
          have hstep : (dirtyFold h ((k, r') :: rest)).1 =
              (dirtyFold h rest).1 := by
            simp [dirtyFold, he]
          have hv2 : ∀ p ∈ rest, p.2 < h.length :=
            fun p hp => hv p (List.mem_cons_of_mem _ hp)
          rw [hstep, ih _ hv2]
          by_cases hrr : r = r'
          · subst hrr
            simp [he]
          · simp only [List.map_cons, List.mem_cons, hrr, false_or]

theorem isVal_heapAt_set_expunged {h : List (EntryP V)} {r' : Nat}
    (he : heapAt h r' = .nil) (r : Nat) :
    isVal (heapAt (h.set r' .expunged) r) = isVal (heapAt h r) := by
  rw [heapAt_set]
  by_cases hc : r' = r ∧ r' < h.length
  · rw [if_pos hc, ← hc.1, he]
    rfl
  · rw [if_neg hc]

theorem dirtyFold_lookupA (h : List (EntryP V)) (l : List (K × Nat))
    (hn : (l.map Prod.fst).Nodup) (k : K) :
    lookupA (dirtyFold h l).2 k =
      (lookupA l k).bind
        (fun r => if isVal (heapAt h r) then some r else none) := by
  induction l generalizing h with
  | nil => simp [dirtyFold, lookupA]
  | cons p rest ih =>
      obtain ⟨k', r'⟩ := p
      simp only [List.map_cons, List.nodup_cons] at hn
      cases he : heapAt h r' with
      | nil =>
          have hstep : dirtyFold h ((k', r') :: rest) =
              dirtyFold (h.set r' .expunged) rest := by
            simp [dirtyFold, he]
          rw [hstep, ih _ hn.2]
          by_cases hk : k' = k
          · subst hk
            have hrest : lookupA rest k' = none :=
              lookupA_eq_none.mpr hn.1
            simp [lookupA, hrest, he, isVal]
          · have hcons : lookupA ((k', r') :: rest) k = lookupA rest k := by
              simp [lookupA, hk]
            rw [hcons]
            cases hrest : lookupA rest k with
            | none => simp
            | some r =>
                simp [isVal_heapAt_set_expunged he r]
      | expunged =>
          have hstep : dirtyFold h ((k', r') :: rest) = dirtyFold h rest := by
            simp [dirtyFold, he]
          rw [hstep, ih _ hn.2]
          by_cases hk : k' = k
          · subst hk
            have hrest : lookupA rest k' = none :=
              lookupA_eq_none.mpr hn.1
            simp [lookupA, hrest, he, isVal]
          · have hcons : lookupA ((k', r') :: rest) k = lookupA rest k := by
              simp [lookupA, hk]
            rw [hcons]
      | val v =>
          have hstep : (dirtyFold h ((k', r') :: rest)).2 =
              (k', r') :: (dirtyFold h rest).2 := by
            simp [dirtyFold, he]
          rw [hstep]
          by_cases hk : k' = k
          · subst hk
            simp [lookupA, he, isVal]
          · have hcons : lookupA ((k', r') :: rest) k = lookupA rest k := by
              simp [lookupA, hk]
            have hcons2 : lookupA ((k', r') :: (dirtyFold h rest).2) k =
                lookupA (dirtyFold h rest).2 k := by
              simp [lookupA, hk]
            rw [hcons, hcons2, ih _ hn.2]

end SyncMap

namespace SyncMap

variable {K V : Type} [DecidableEq K] [DecidableEq V]

theorem inv_init : Inv (initState : Map K V) := by
  refine ⟨rfl, ?_, ?_, ?_, ?_, ?_, ?_, ?_, ?_, ?_⟩ <;>
    simp [initState, dirtyD]

theorem inv_misses {s : Map K V} (hs : Inv s) (n : Nat) :
    Inv { s with misses := n } :=
  hs

theorem inv_promote {s : Map K V} (hs : Inv s) :
    Inv { read := ⟨s.dirty.getD [], false⟩, dirty := none, misses := 0,
          heap := s.heap } := by
  obtain ⟨hAm, hRV, hDV, hRN, hDN, hRF, hDF, hDE, hAg, hND⟩ := hs
  refine ⟨rfl, ?_, ?_, ?_, ?_, ?_, ?_, ?_, ?_, ?_⟩
  · exact hDV
  · simp [dirtyD]
  · exact hDN
  · simp [dirtyD]
  · exact hDF
  · simp [dirtyD]
  · simp [dirtyD]
  · intro hc
    simp at hc
  · intro _ p hp
    exact hDE p hp

theorem inv_missLocked {s : Map K V} (hs : Inv s) : Inv (missLocked s) := by
  have hdef : missLocked s =
      if s.misses + 1 < dirtySize s then { s with misses := s.misses + 1 }
      else { read := ⟨s.dirty.getD [], false⟩, dirty := none, misses := 0,
             heap := s.heap } := rfl
  rw [hdef]
  by_cases hc : s.misses + 1 < dirtySize s
  · rw [if_pos hc]
    exact inv_misses hs _
  · rw [if_neg hc]
    exact inv_promote hs

theorem inv_set_live {s : Map K V} (hs : Inv s) {r : Nat} {x : EntryP V}
    (hr : heapAt s.heap r ≠ .expunged) (hx : x ≠ .expunged) :
    Inv { s with heap := s.heap.set r x } := by
  obtain ⟨hAm, hRV, hDV, hRN, hDN, hRF, hDF, hDE, hAg, hND⟩ := hs
  refine ⟨hAm, ?_, ?_, hRN, hDN, hRF, hDF, ?_, ?_, ?_⟩
  · intro p hp
    simpa [List.length_set] using hRV p hp
  · intro p hp
    simp only [dirtyD] at hp ⊢
    simpa [List.length_set] using hDV p hp
  · intro p hp
    simp only [dirtyD] at hp ⊢
    rw [heapAt_set]
    split_ifs with h
    · exact hx
    · exact hDE p hp
  · intro hSome p hp
    simp only [dirtyD] at hSome ⊢
    constructor
    · intro hne
      rw [heapAt_set] at hne
      split_ifs at hne with h
      · refine (hAg hSome p hp).1 ?_
        rw [← h.1]
        exact hr
      · exact (hAg hSome p hp).1 hne
    · intro heq
      rw [heapAt_set] at heq
      split_ifs at heq with h
      · exact absurd heq hx
      · exact (hAg hSome p hp).2 heq
  · intro hNone p hp
    rw [heapAt_set]
    split_ifs with h
    · exact hx
    · exact hND hNone p hp

end SyncMap

namespace SyncMap

variable {K V : Type} [DecidableEq K] [DecidableEq V]

theorem inv_unexpunge {s : Map K V} (hs : Inv s) {k : K} {r : Nat}
    {d : List (K × Nat)} (hd : s.dirty = some d)
    (hl : lookupA s.read.m k = some r)
    (he : heapAt s.heap r = .expunged) :
    Inv { s with heap := s.heap.set r .nil,
                 dirty := some (insertA d k r) } := by
  obtain ⟨hAm, hRV, hDV, hRN, hDN, hRF, hDF, hDE, hAg, hND⟩ := hs
  have hDirtyD : dirtyD s = d := by simp [dirtyD, hd]
  have hSome : s.dirty.isSome = true := by rw [hd]; rfl
  have hmem : (k, r) ∈ s.read.m := mem_of_lookupA hl
  have hkd : lookupA d k = none := by
    have := (hAg hSome (k, r) hmem).2 he
    rwa [hDirtyD] at this
  have hknotin : k ∉ d.map Prod.fst := lookupA_eq_none.mp hkd
  have hins : insertA d k r = d ++ [(k, r)] := insertA_of_lookup_none hkd r
  have hrlen : r < s.heap.length := hRV (k, r) hmem
  refine ⟨?_, ?_, ?_, hRN, ?_, hRF, ?_, ?_, ?_, ?_⟩
  · rw [hAm, hd]
    rfl
  · intro p hp
    simpa [List.length_set] using hRV p hp
  · intro p hp
    simp only [dirtyD, Option.getD_some, hins] at hp
    rw [List.length_set]
    rcases List.mem_append.mp hp with h | h
    · exact hDV p (by rw [hDirtyD]; exact h)
    · simp at h
      rw [h]
      exact hrlen
  · simp only [dirtyD, Option.getD_some, hins, List.map_append,
      List.nodup_append]
    refine ⟨by rwa [hDirtyD] at hDN, by simp, ?_⟩
    intro a ha hb
    simp at hb
    rw [hb] at ha
    exact hknotin ha
  · intro p hp q hq
    simp only [dirtyD, Option.getD_some, hins] at hp hq
    rcases List.mem_append.mp hp with h1 | h1 <;>
      rcases List.mem_append.mp hq with h2 | h2
    · exact hDF p (by rw [hDirtyD]; exact h1) q (by rw [hDirtyD]; exact h2)
    · simp at h2
      intro hpq
      exfalso
      rw [h2] at hpq
      have hp2 : p.2 = r := hpq
      have hne := hDE p (by rw [hDirtyD]; exact h1)
      rw [hp2] at hne
      exact hne he
    · simp at h1
      intro hpq
      exfalso
      rw [h1] at hpq
      have hq2 : q.2 = r := (show r = q.2 from hpq).symm
      have hne := hDE q (by rw [hDirtyD]; exact h2)
      rw [hq2] at hne
      exact hne he
    · simp at h1 h2
      rw [h1, h2]
      exact fun _ => rfl
  · intro p hp
    simp only [dirtyD, Option.getD_some, hins] at hp
    rcases List.mem_append.mp hp with h | h
    · rw [heapAt_set]
      split_ifs with hc
      · simp
      · exact hDE p (by rw [hDirtyD]; exact h)
    · simp at h
      rw [h]
      simp [heapAt_set_nil_self]
  · intro _ p hp
    have hlp : lookupA s.read.m p.1 = some p.2 := lookupA_of_mem hRN hp
    simp only [dirtyD, Option.getD_some, hins]
    constructor
    · intro hne
      by_cases hpk : p.1 = k
      · have hp2r : p.2 = r := by
          rw [hpk] at hlp
          rw [hlp] at hl
          exact Option.some.inj hl
        rw [hpk, hp2r, lookupA_append_none hkd]
        simp [lookupA]
      · have hp2r : p.2 ≠ r := by
          intro h2
          exact hpk (hRF p hp (k, r) hmem h2)
        have hpre : heapAt s.heap p.2 ≠ .expunged := by
          by_cases hc : r = p.2 ∧ r < s.heap.length
          · exact absurd hc.1.symm hp2r
          · rw [heapAt_set, if_neg hc] at hne
            exact hne
        have := (hAg hSome p hp).1 hpre
        rw [hDirtyD] at this
        exact lookupA_append_left this
    · intro heq
      have hp2r : p.2 ≠ r := by
        intro h2
        rw [h2, heapAt_set_nil_self] at heq
        exact absurd heq (by simp)
      have hpre : heapAt s.heap p.2 = .expunged := by
        by_cases hc : r = p.2 ∧ r < s.heap.length
        · exact absurd hc.1.symm hp2r
        · rwa [heapAt_set, if_neg hc] at heq
      have hnone := (hAg hSome p hp).2 hpre
      rw [hDirtyD] at hnone
      have hpk : p.1 ≠ k := by
        intro hc
        rw [hc] at hlp
        rw [hlp] at hl
        exact hp2r (Option.some.inj hl)
      rw [lookupA_append_none hnone]
      have hkp : ¬k = p.1 := fun h2 => hpk h2.symm
      simp [lookupA, hkp]
  · intro hc
    simp at hc

theorem inv_insert_fresh {s : Map K V} (hs : Inv s) {k : K}
    {d : List (K × Nat)} (hd : s.dirty = some d)
    (hr : lookupA s.read.m k = none) (hdk : lookupA d k = none) (v : V) :
    Inv { s with dirty := some (insertA d k s.heap.length),
                 heap := s.heap ++ [.val v] } := by
  obtain ⟨hAm, hRV, hDV, hRN, hDN, hRF, hDF, hDE, hAg, hND⟩ := hs
  have hDirtyD : dirtyD s = d := by simp [dirtyD, hd]
  have hSome : s.dirty.isSome = true := by rw [hd]; rfl
  have hknotin : k ∉ d.map Prod.fst := lookupA_eq_none.mp hdk
  have hkread : k ∉ s.read.m.map Prod.fst := lookupA_eq_none.mp hr
  have hins : insertA d k s.heap.length = d ++ [(k, s.heap.length)] :=
    insertA_of_lookup_none hdk _
  refine ⟨?_, ?_, ?_, hRN, ?_, hRF, ?_, ?_, ?_, ?_⟩
  · rw [hAm, hd]
    rfl
  · intro p hp
    have := hRV p hp
    simp only [List.length_append, List.length_cons, List.length_nil]
    omega
  · intro p hp
    simp only [dirtyD, Option.getD_some, hins] at hp
    simp only [List.length_append, List.length_cons, List.length_nil]
    rcases List.mem_append.mp hp with h | h
    · have := hDV p (by rw [hDirtyD]; exact h)
      omega
    · simp at h
      rw [h]
      omega
  · simp only [dirtyD, Option.getD_some, hins, List.map_append,
      List.nodup_append]
    refine ⟨by rwa [hDirtyD] at hDN, by simp, ?_⟩
    intro a ha hb
    simp at hb
    rw [hb] at ha
    exact hknotin ha
  · intro p hp q hq
    simp only [dirtyD, Option.getD_some, hins] at hp hq
    rcases List.mem_append.mp hp with h1 | h1 <;>
      rcases List.mem_append.mp hq with h2 | h2
    · exact hDF p (by rw [hDirtyD]; exact h1) q (by rw [hDirtyD]; exact h2)
    · simp at h2
      intro hpq
      have := hDV p (by rw [hDirtyD]; exact h1)
      rw [h2] at hpq
      omega
    · simp at h1
      intro hpq
      have := hDV q (by rw [hDirtyD]; exact h2)
      rw [h1] at hpq
      omega
    · simp at h1 h2
      rw [h1, h2]
      exact fun _ => rfl
  · intro p hp
    simp only [dirtyD, Option.getD_some, hins] at hp
    rcases List.mem_append.mp hp with h | h
    · rw [heapAt_append_lt (hDV p (by rw [hDirtyD]; exact h))]
      exact hDE p (by rw [hDirtyD]; exact h)
    · simp at h
      rw [h]
      rw [heapAt_append_self]
      simp
  · intro _ p hp
    have hplt : p.2 < s.heap.length := hRV p hp
    have hXheap : heapAt (s.heap ++ [.val v]) p.2 = heapAt s.heap p.2 :=
      heapAt_append_lt hplt
    have hpk : p.1 ≠ k := by
      intro hc
      exact hkread (hc ▸ List.mem_map.mpr ⟨p, hp, rfl⟩)
    simp only [dirtyD, Option.getD_some, hins]
    constructor
    · intro hne
      rw [hXheap] at hne
      have := (hAg hSome p hp).1 hne
      rw [hDirtyD] at this
      exact lookupA_append_left this
    · intro heq
      rw [hXheap] at heq
      have hnone := (hAg hSome p hp).2 heq
      rw [hDirtyD] at hnone
      rw [lookupA_append_none hnone]
      have hkp : ¬k = p.1 := fun h2 => hpk h2.symm
      simp [lookupA, hkp]
  · intro hc
    simp at hc

end SyncMap

namespace SyncMap

variable {K V : Type} [DecidableEq K] [DecidableEq V]

theorem inv_newdirty_insert {s : Map K V} (hs : Inv s) {k : K}
    (hd : s.dirty = none) (hr : lookupA s.read.m k = none) (v : V) :
    Inv { read := ⟨s.read.m, true⟩,
          dirty := some (insertA (dirtyFold s.heap s.read.m).2 k
            (dirtyFold s.heap s.read.m).1.length),
          misses := s.misses,
          heap := (dirtyFold s.heap s.read.m).1 ++ [.val v] } := by
  obtain ⟨hAm, hRV, hDV, hRN, hDN, hRF, hDF, hDE, hAg, hND⟩ := hs
  have hND' : ∀ p ∈ s.read.m, heapAt s.heap p.2 ≠ .expunged :=
    hND (by rw [hd]; rfl)
  have hlen : (dirtyFold s.heap s.read.m).1.length = s.heap.length :=
    dirtyFold_fst_length _ _
  have hsub : List.Sublist (dirtyFold s.heap s.read.m).2 s.read.m :=
    dirtyFold_snd_sublist _ _
  have hkeysub : List.Sublist ((dirtyFold s.heap s.read.m).2.map Prod.fst)
      (s.read.m.map Prod.fst) := hsub.map _
  have hd0n : ((dirtyFold s.heap s.read.m).2.map Prod.fst).Nodup :=
    hkeysub.nodup hRN
  have hkread : k ∉ s.read.m.map Prod.fst := lookupA_eq_none.mp hr
  have hknotin : k ∉ (dirtyFold s.heap s.read.m).2.map Prod.fst :=
    fun hm => hkread (hkeysub.subset hm)
  have hk0 : lookupA (dirtyFold s.heap s.read.m).2 k = none :=
    lookupA_eq_none.mpr hknotin
  have hins : insertA (dirtyFold s.heap s.read.m).2 k
      (dirtyFold s.heap s.read.m).1.length =
      (dirtyFold s.heap s.read.m).2 ++
        [(k, (dirtyFold s.heap s.read.m).1.length)] :=
    insertA_of_lookup_none hk0 _
  have hchar : ∀ r : Nat, heapAt (dirtyFold s.heap s.read.m).1 r =
      if heapAt s.heap r = .nil ∧ r ∈ s.read.m.map Prod.snd then .expunged
      else heapAt s.heap r := dirtyFold_heapAt s.heap s.read.m hRV
  have hlook : ∀ k' : K, lookupA (dirtyFold s.heap s.read.m).2 k' =
      (lookupA s.read.m k').bind
        (fun r => if isVal (heapAt s.heap r) then some r else none) :=
    dirtyFold_lookupA s.heap s.read.m hRN
  have hd0val : ∀ p ∈ (dirtyFold s.heap s.read.m).2,
      isVal (heapAt s.heap p.2) = true := by
    intro p hp
    have hm := hsub.subset hp
    have h2 : lookupA s.read.m p.1 = some p.2 := lookupA_of_mem hRN hm
    have h3 : lookupA (dirtyFold s.heap s.read.m).2 p.1 = some p.2 :=
      lookupA_of_mem hd0n hp
    rw [hlook p.1, h2] at h3
    by_cases hc : isVal (heapAt s.heap p.2) = true
    · exact hc
    · simp [hc] at h3
  have hd0h1 : ∀ p ∈ (dirtyFold s.heap s.read.m).2,
      heapAt (dirtyFold s.heap s.read.m).1 p.2 = heapAt s.heap p.2 := by
    intro p hp
    rw [hchar p.2]
    have := hd0val p hp
    cases hcase : heapAt s.heap p.2 with
    | nil => rw [hcase] at this; simp [isVal] at this
    | expunged => simp
    | val w => simp
  refine ⟨rfl, ?_, ?_, hRN, ?_, hRF, ?_, ?_, ?_, ?_⟩
  · intro p hp
    have := hRV p hp
    simp only [List.length_append, List.length_cons, List.length_nil, hlen]
    omega
  · intro p hp
    simp only [dirtyD, Option.getD_some, hins] at hp
    simp only [List.length_append, List.length_cons, List.length_nil]
    rcases List.mem_append.mp hp with h | h
    · have := hRV p (hsub.subset h)
      omega
    · simp at h
      rw [h]
      omega
  · simp only [dirtyD, Option.getD_some, hins, List.map_append,
      List.nodup_append]
    refine ⟨hd0n, by simp, ?_⟩
    intro a ha hb
    simp at hb
    rw [hb] at ha
    exact hknotin ha
  · intro p hp q hq
    simp only [dirtyD, Option.getD_some, hins] at hp hq
    rcases List.mem_append.mp hp with h1 | h1 <;>
      rcases List.mem_append.mp hq with h2 | h2
    · exact hRF p (hsub.subset h1) q (hsub.subset h2)
    · simp at h2
      intro hpq
      have := hRV p (hsub.subset h1)
      rw [h2] at hpq
      rw [hlen] at hpq
      omega
    · simp at h1
      intro hpq
      have := hRV q (hsub.subset h2)
      rw [h1] at hpq
      rw [hlen] at hpq
      omega
    · simp at h1 h2
      rw [h1, h2]
      exact fun _ => rfl
  · intro p hp
    simp only [dirtyD, Option.getD_some, hins] at hp
    rcases List.mem_append.mp hp with h | h
    · have hplt : p.2 < (dirtyFold s.heap s.read.m).1.length := by
        rw [hlen]
        exact hRV p (hsub.subset h)
      rw [heapAt_append_lt hplt, hd0h1 p h]
      have := hd0val p h
      intro hc
      rw [hc] at this
      simp [isVal] at this
    · simp at h
      rw [h]
      rw [heapAt_append_self]
      simp
  · intro _ p hp
    have hpm : p ∈ s.read.m := hp
    have hplt : p.2 < (dirtyFold s.heap s.read.m).1.length := by
      rw [hlen]
      exact hRV p hpm
    have hXheap : heapAt ((dirtyFold s.heap s.read.m).1 ++ [.val v]) p.2 =
        heapAt (dirtyFold s.heap s.read.m).1 p.2 := heapAt_append_lt hplt
    have hpmemsnd : p.2 ∈ s.read.m.map Prod.snd :=
      List.mem_map.mpr ⟨p, hpm, rfl⟩
    have hlpre : lookupA s.read.m p.1 = some p.2 := lookupA_of_mem hRN hpm
    have hpk : p.1 ≠ k := by
      intro hc
      exact hkread (hc ▸ List.mem_map.mpr ⟨p, hpm, rfl⟩)
    simp only [dirtyD, Option.getD_some, hins]
    constructor
    · intro hne
      rw [hXheap, hchar p.2] at hne
      split_ifs at hne with hcnd
      · exact absurd rfl hne
      · have hval : isVal (heapAt s.heap p.2) = true := by
          cases hcase : heapAt s.heap p.2 with
          | nil => exact absurd ⟨hcase, hpmemsnd⟩ hcnd
          | expunged => exact absurd hcase hne
          | val w => rfl
        have hlk : lookupA (dirtyFold s.heap s.read.m).2 p.1 = some p.2 := by
          rw [hlook p.1, hlpre]
          simp [hval]
        exact lookupA_append_left hlk
    · intro heq
      rw [hXheap, hchar p.2] at heq
      split_ifs at heq with hcnd
      · have hlk : lookupA (dirtyFold s.heap s.read.m).2 p.1 = none := by
          rw [hlook p.1, hlpre]
          simp [hcnd.1, isVal]
        rw [lookupA_append_none hlk]
        have hkp : ¬k = p.1 := fun h2 => hpk h2.symm
        simp [lookupA, hkp]
      · exact absurd heq (hND' p hpm)
  · intro hc
    simp at hc

theorem inv_delete_dirty {s : Map K V} (hs : Inv s) {k : K}
    (hr : lookupA s.read.m k = none) :
    Inv { s with dirty := s.dirty.map (fun d => deleteA d k) } := by
  obtain ⟨hAm, hRV, hDV, hRN, hDN, hRF, hDF, hDE, hAg, hND⟩ := hs
  cases hd : s.dirty with
  | none =>
      rw [Option.map_none']
      rw [← hd]
      exact ⟨hAm, hRV, hDV, hRN, hDN, hRF, hDF, hDE, hAg, hND⟩
  | some d =>
      rw [Option.map_some']
      have hDirtyD : dirtyD s = d := by simp [dirtyD, hd]
      have hSome : s.dirty.isSome = true := by rw [hd]; rfl
      have hsub : List.Sublist (deleteA d k) d := deleteA_sublist d k
      have hkread : k ∉ s.read.m.map Prod.fst := lookupA_eq_none.mp hr
      refine ⟨?_, hRV, ?_, hRN, ?_, hRF, ?_, ?_, ?_, ?_⟩
      · rw [hAm, hd]
        rfl
      · intro p hp
        simp only [dirtyD, Option.getD_some] at hp
        exact hDV p (by rw [hDirtyD]; exact hsub.subset hp)
      · simp only [dirtyD, Option.getD_some]
        exact (hsub.map Prod.fst).nodup (by rwa [hDirtyD] at hDN)
      · intro p hp q hq
        simp only [dirtyD, Option.getD_some] at hp hq
        exact hDF p (by rw [hDirtyD]; exact hsub.subset hp)
          q (by rw [hDirtyD]; exact hsub.subset hq)
      · intro p hp
        simp only [dirtyD, Option.getD_some] at hp
        exact hDE p (by rw [hDirtyD]; exact hsub.subset hp)
      · intro _ p hp
        have hpm : p ∈ s.read.m := hp
        have hpk : p.1 ≠ k := by
          intro hc
          exact hkread (hc ▸ List.mem_map.mpr ⟨p, hpm, rfl⟩)
        simp only [dirtyD, Option.getD_some]
        constructor
        · intro hne
          have := (hAg hSome p hpm).1 hne
          rw [hDirtyD] at this
          rw [lookupA_deleteA_ne hpk]
          exact this
        · intro heq
          have := (hAg hSome p hpm).2 heq
          rw [hDirtyD] at this
          rw [lookupA_deleteA_ne hpk]
          exact this
      · intro hc
        simp at hc

end SyncMap

namespace SyncMap

variable {K V : Type} [DecidableEq K] [DecidableEq V]

theorem invAmended {s : Map K V} (hs : Inv s) :
    s.read.amended = s.dirty.isSome :=
  hs.1

theorem invDirtyNoExp {s : Map K V} (hs : Inv s) :
    ∀ p ∈ dirtyD s, heapAt s.heap p.2 ≠ .expunged :=
  hs.2.2.2.2.2.2.2.1

/-- The state component of `Load`: a miss on an amended snapshot runs
`missLocked`, anything else leaves the state alone. -/
theorem Load_snd (s : Map K V) (k : K) :
    (Load s k).2 =
      if lookupA s.read.m k = none ∧ s.read.amended = true
      then missLocked s else s := by
  unfold Load
  cases hl : lookupA s.read.m k with
  | some r => simp [hl]
  | none =>
      by_cases ha : s.read.amended = true
      · simp only [hl, ha, if_true, true_and]
        cases he : lookupD s.dirty k <;> simp [he]
      · simp [hl, ha]

theorem inv_Load {s : Map K V} (hs : Inv s) (k : K) : Inv (Load s k).2 := by
  rw [Load_snd]
  split_ifs with h
  · exact inv_missLocked hs
  · exact hs

theorem inv_Delete {s : Map K V} (hs : Inv s) (k : K) :
    Inv (Delete s k) := by
  unfold Delete
  cases hl : lookupA s.read.m k with
  | some r =>
      cases he : heapAt s.heap r with
      | nil => simp only [he]; exact hs
      | expunged => simp only [he]; exact hs
      | val w =>
          simp only [he]
          exact inv_set_live hs (by rw [he]; simp) (by simp)
  | none =>
      by_cases ha : s.read.amended = true
      · simp only [ha, if_true]
        exact inv_delete_dirty hs hl
      · simp only [ha, if_false]
        exact hs

theorem inv_Range {s : Map K V} (hs : Inv s) (f : K → V → Bool) :
    Inv (Range s f).2 := by
  unfold Range
  by_cases ha : s.read.amended = true
  · simp only [ha, if_true]
    exact inv_promote hs
  · simp only [ha, if_false]
    exact hs

end SyncMap

namespace SyncMap

variable {K V : Type} [DecidableEq K] [DecidableEq V]

theorem inv_storeSlow {s : Map K V} (hs : Inv s) {k : K} {v : V}
    {s' : Map K V} (h : storeSlow s k v = some s') : Inv s' := by
  unfold storeSlow at h
  cases hl : lookupA s.read.m k with
  | some r =>
      simp only [hl] at h
      cases he : heapAt s.heap r with
      | expunged =>
          simp only [he] at h
          cases hd : s.dirty with
          | none =>
              simp only [hd] at h
              exact absurd h (by simp)
          | some d =>
              simp only [hd, Option.some.injEq] at h
              subst h
              refine inv_set_live (inv_unexpunge hs hd hl he) ?_ (by simp)
              show heapAt (s.heap.set r .nil) r ≠ .expunged
              rw [heapAt_set_nil_self]
              simp
      | nil =>
          simp only [he, Option.some.injEq] at h
          subst h
          exact inv_set_live hs (by rw [he]; simp) (by simp)
      | val w =>
          simp only [he, Option.some.injEq] at h
          subst h
          exact inv_set_live hs (by rw [he]; simp) (by simp)
  | none =>
      simp only [hl] at h
      cases hld : lookupD s.dirty k with
      | some r =>
          simp only [hld, Option.some.injEq] at h
          subst h
          have hne : heapAt s.heap r ≠ .expunged := by
            cases hd : s.dirty with
            | none =>
                rw [hd] at hld
                exact absurd hld (by simp [lookupD])
            | some d =>
                rw [hd] at hld
                simp only [lookupD] at hld
                have hm := mem_of_lookupA hld
                have := invDirtyNoExp hs (k, r) (by simp [dirtyD, hd, hm])
                exact this
          exact inv_set_live hs hne (by simp)
      | none =>
          simp only [hld] at h
          by_cases ha : s.read.amended = true
          · rw [if_pos ha] at h
            have hsome : s.dirty.isSome = true := by
              rw [← invAmended hs]
              exact ha
            cases hd : s.dirty with
            | none => rw [hd] at hsome; simp at hsome
            | some d =>
                simp only [hd, Option.some.injEq] at h
                subst h
                have hdk : lookupA d k = none := by
                  rw [hd] at hld
                  simpa [lookupD] using hld
                exact inv_insert_fresh hs hd hl hdk v
          · rw [if_neg ha] at h
            have hd : s.dirty = none := by
              cases hd2 : s.dirty with
              | none => rfl
              | some d =>
                  rw [invAmended hs, hd2] at ha
                  simp at ha
            unfold dirtyLocked at h
            simp only [hd, Option.some.injEq] at h
            subst h
            exact inv_newdirty_insert hs hd hl v

theorem inv_Store {s : Map K V} (hs : Inv s) {k : K} {v : V}
    {s' : Map K V} (h : Store s k v = some s') : Inv s' := by
  unfold Store at h
  cases hl : lookupA s.read.m k with
  | none =>
      simp only [hl] at h
      exact inv_storeSlow hs h
  | some r =>
      simp only [hl] at h
      cases he : heapAt s.heap r with
      | expunged =>
          simp only [he] at h
          exact inv_storeSlow hs h
      | nil =>
          simp only [he, Option.some.injEq] at h
          subst h
          exact inv_set_live hs (by rw [he]; simp) (by simp)
      | val w =>
          simp only [he, Option.some.injEq] at h
          subst h
          exact inv_set_live hs (by rw [he]; simp) (by simp)

end SyncMap

namespace SyncMap

variable {K V : Type} [DecidableEq K] [DecidableEq V]

theorem inv_loadOrStoreSlow {s : Map K V} (hs : Inv s) {k : K} {v : V}
    {p : (Option V × Bool) × Map K V}
    (h : loadOrStoreSlow s k v = some p) : Inv p.2 := by
  unfold loadOrStoreSlow at h
  cases hl : lookupA s.read.m k with
  | some r =>
      simp only [hl] at h
      cases he : heapAt s.heap r with
      | expunged =>
          simp only [he] at h
          cases hd : s.dirty with
          | none =>
              simp only [hd] at h
              exact absurd h (by simp)
          | some d =>
              have ht : tryLoadOrStore (s.heap.set r .nil) r v =
                  ((some v, false, true),
                    (s.heap.set r .nil).set r (.val v)) := by
                unfold tryLoadOrStore
                rw [heapAt_set_nil_self]
              simp only [hd, ht, Option.some.injEq] at h
              subst h
              refine inv_set_live (inv_unexpunge hs hd hl he) ?_ (by simp)
              show heapAt (s.heap.set r .nil) r ≠ .expunged
              rw [heapAt_set_nil_self]
              simp
      | nil =>
          have ht : tryLoadOrStore s.heap r v =
              ((some v, false, true), s.heap.set r (.val v)) := by
            unfold tryLoadOrStore
            rw [he]
          simp only [he, ht, Option.some.injEq] at h
          subst h
          exact inv_set_live hs (by rw [he]; simp) (by simp)
      | val w =>
          have ht : tryLoadOrStore s.heap r v =
              ((some w, true, true), s.heap) := by
            unfold tryLoadOrStore
            rw [he]
          simp only [he, ht, Option.some.injEq] at h
          subst h
          exact hs
  | none =>
      simp only [hl] at h
      cases hld : lookupD s.dirty k with
      | some r =>
          simp only [hld] at h
          have hne : heapAt s.heap r ≠ .expunged := by
            cases hd : s.dirty with
            | none =>
                rw [hd] at hld
                exact absurd hld (by simp [lookupD])
            | some d =>
                rw [hd] at hld
                simp only [lookupD] at hld
                have hm := mem_of_lookupA hld
                exact invDirtyNoExp hs (k, r) (by simp [dirtyD, hd, hm])
          cases he : heapAt s.heap r with
          | expunged => exact absurd he hne
          | nil =>
              have ht : tryLoadOrStore s.heap r v =
                  ((some v, false, true), s.heap.set r (.val v)) := by
                unfold tryLoadOrStore
                rw [he]
              simp only [ht, Option.some.injEq] at h
              subst h
              exact inv_missLocked (inv_set_live hs hne (by simp))
          | val w =>
              have ht : tryLoadOrStore s.heap r v =
                  ((some w, true, true), s.heap) := by
                unfold tryLoadOrStore
                rw [he]
              simp only [ht, Option.some.injEq] at h
              subst h
              exact inv_missLocked hs
      | none =>
          simp only [hld] at h
          by_cases ha : s.read.amended = true
          · rw [if_pos ha] at h
            have hsome : s.dirty.isSome = true := by
              rw [← invAmended hs]
              exact ha
            cases hd : s.dirty with
            | none => rw [hd] at hsome; simp at hsome
            | some d =>
                simp only [hd, Option.some.injEq] at h
                subst h
                have hdk : lookupA d k = none := by
                  rw [hd] at hld
                  simpa [lookupD] using hld
                exact inv_insert_fresh hs hd hl hdk v
          · rw [if_neg ha] at h
            have hd : s.dirty = none := by
              cases hd2 : s.dirty with
              | none => rfl
              | some d =>
                  rw [invAmended hs, hd2] at ha
                  simp at ha
            unfold dirtyLocked at h
            simp only [hd, Option.some.injEq] at h
            subst h
            exact inv_newdirty_insert hs hd hl v

theorem inv_LoadOrStore {s : Map K V} (hs : Inv s) {k : K} {v : V}
    {p : (Option V × Bool) × Map K V}
    (h : LoadOrStore s k v = some p) : Inv p.2 := by
  unfold LoadOrStore at h
  cases hl : lookupA s.read.m k with
  | none =>
      simp only [hl] at h
      exact inv_loadOrStoreSlow hs h
  | some r =>
      simp only [hl] at h
      cases he : heapAt s.heap r with
      | expunged =>
          have ht : tryLoadOrStore s.heap r v =
              ((none, false, false), s.heap) := by
            unfold tryLoadOrStore
            rw [he]
          rw [ht] at h
          simp only [Bool.false_eq_true, if_false] at h
          exact inv_loadOrStoreSlow hs h
      | nil =>
          have ht : tryLoadOrStore s.heap r v =
              ((some v, false, true), s.heap.set r (.val v)) := by
            unfold tryLoadOrStore
            rw [he]
          rw [ht] at h
          simp only [if_true, Option.some.injEq] at h
          subst h
          exact inv_set_live hs (by rw [he]; simp) (by simp)
      | val w =>
          have ht : tryLoadOrStore s.heap r v =
              ((some w, true, true), s.heap) := by
            unfold tryLoadOrStore
            rw [he]
          rw [ht] at h
          simp only [if_true, Option.some.injEq] at h
          subst h
          exact hs

end SyncMap

namespace SyncMap

variable {K V : Type} [DecidableEq K] [DecidableEq V]

theorem inv_runOp {s s' : Map K V} (hs : Inv s) {op : Op K V}
    (h : runOp s op = some s') : Inv s' := by
  cases op with
  | store k v => exact inv_Store hs h
  | load k =>
      simp only [runOp, Option.some.injEq] at h
      subst h
      exact inv_Load hs k
  | delete k =>
      simp only [runOp, Option.some.injEq] at h
      subst h
      exact inv_Delete hs k
  | loadOrStore k v =>
      simp only [runOp] at h
      cases hp : LoadOrStore s k v with
      | none => rw [hp] at h; simp at h
      | some p =>
          rw [hp] at h
          simp only [Option.map_some', Option.some.injEq] at h
          rw [← h]
          exact inv_LoadOrStore hs hp
  | range f =>
      simp only [runOp, Option.some.injEq] at h
      subst h
      exact inv_Range hs f

theorem inv_runTrace {s s' : Map K V} (hs : Inv s) {tr : List (Op K V)}
    (h : runTrace s tr = some s') : Inv s' := by
  induction tr generalizing s with
  | nil =>
      simp only [runTrace, Option.some.injEq] at h
      rw [← h]
      exact hs
  | cons op rest ih =>
      simp only [runTrace] at h
      cases ho : runOp s op with
      | none => rw [ho] at h; simp at h
      | some s1 =>
          rw [ho] at h
          exact ih (inv_runOp hs ho) h

/-- Every state reachable from the zero map satisfies the invariant. -/
theorem reachable_inv {s : Map K V} (hr : Reachable s) : Inv s := by
  obtain ⟨tr, htr⟩ := hr
  exact inv_runTrace inv_init htr

end SyncMap

namespace SyncMap

variable {K V : Type} [DecidableEq K] [DecidableEq V]

theorem lookupA_insert_fresh {l : List (K × Nat)} {k : K}
    (h : lookupA l k = none) (r : Nat) :
    lookupA (insertA l k r) k = some r := by
  rw [insertA_of_lookup_none h, lookupA_append_none h]
  simp [lookupA]

/-- C10: on the zero map every operation is well-defined: `Load` reports
not-found and changes nothing, `Delete` is a no-op, `Range` visits nothing
and changes nothing, and `Store`/`LoadOrStore` build the dirty map (one
copy of the empty snapshot), publish an amended snapshot and insert the
key as a fresh entry, without any nil-map write (the results are `some`). -/
theorem zero_map_total (k : K) (v : V) (f : K → V → Bool) :
    (Load (initState : Map K V) k).1 = (none, false) ∧
    (Load (initState : Map K V) k).2 = initState ∧
    Delete (initState : Map K V) k = initState ∧
    (Range (initState : Map K V) f).1 = [] ∧
    (Range (initState : Map K V) f).2 = initState ∧
    Store (initState : Map K V) k v =
      some ⟨⟨[], true⟩, some [(k, 0)], 0, [.val v]⟩ ∧
    LoadOrStore (initState : Map K V) k v =
      some ((some v, false), ⟨⟨[], true⟩, some [(k, 0)], 0, [.val v]⟩) := by
  refine ⟨?_, ?_, ?_, ?_, ?_, ?_, ?_⟩ <;>
    simp [Load, Delete, Range, Store, storeSlow, LoadOrStore,
      loadOrStoreSlow, dirtyLocked, dirtyFold, initState, lookupA, lookupD,
      insertA, rangeIter]

/-- C2: `Delete(k)` immediately followed by `Load(k)` reports not-found
through the ordinary boolean result, whatever the state; `Delete` is a
total function (no error channel exists). -/
theorem delete_then_load (s : Map K V) (k : K) :
    (Load (Delete s k) k).1 = (none, false) := by
  unfold Delete
  cases hl : lookupA s.read.m k with
  | some r =>
      cases he : heapAt s.heap r with
      | nil =>
          simp only [he]
          unfold Load
          simp only [hl]
          unfold entryLoad
          rw [he]
      | expunged =>
          simp only [he]
          unfold Load
          simp only [hl]
          unfold entryLoad
          rw [he]
      | val w =>
          simp only [he]
          unfold Load
          simp only [hl]
          unfold entryLoad
          rw [heapAt_set_nil_self]
  | none =>
      by_cases ha : s.read.amended = true
      · simp only [ha, if_true]
        unfold Load
        simp only [hl]
        rw [if_pos ha]
        have hnone : lookupD (s.dirty.map (fun d => deleteA d k)) k = none := by
          cases s.dirty <;> simp [lookupD, lookupA_deleteA_self]
        rw [hnone]
      · rw [if_neg ha]
        unfold Load
        simp only [hl]
        rw [if_neg ha]

/-- C4: a `Load` miss on an amended snapshot records the miss under the
mutex: the counter is incremented and, while it stays strictly below the
dirty map's size, nothing else changes; once it reaches the size, the
snapshot is replaced by the dirty contents with amended = false, the
dirty map becomes nil and the counter resets to 0.  The entry heap is
untouched either way. -/
theorem load_miss_promotion (s : Map K V) (k : K)
    (h1 : lookupA s.read.m k = none) (h2 : s.read.amended = true) :
    (Load s k).2.heap = s.heap ∧
    (s.misses + 1 < dirtySize s →
      (Load s k).2 = { s with misses := s.misses + 1 }) ∧
    (¬(s.misses + 1 < dirtySize s) →
      (Load s k).2 = { read := ⟨dirtyD s, false⟩, dirty := none,
                       misses := 0, heap := s.heap }) := by
  have hdef : missLocked s =
      if s.misses + 1 < dirtySize s then { s with misses := s.misses + 1 }
      else { read := ⟨s.dirty.getD [], false⟩, dirty := none, misses := 0,
             heap := s.heap } := rfl
  rw [Load_snd, if_pos ⟨h1, h2⟩, hdef]
  refine ⟨?_, ?_, ?_⟩
  · split_ifs <;> rfl
  · intro hc
    rw [if_pos hc]
  · intro hc
    rw [if_neg hc]
    rfl

/-- C6: in every reachable state, no key of the dirty map holds an entry
in the `expunged` (tombstoned) state. -/
theorem dirty_no_expunged_reachable {s : Map K V} (hre : Reachable s) :
    ∀ p ∈ dirtyD s, heapAt s.heap p.2 ≠ .expunged :=
  invDirtyNoExp (reachable_inv hre)

/-- C8 (amended): in every reachable state the snapshot's amended flag is
true exactly when the dirty map is non-nil.  (The dirty map need not
still hold a key missing from the snapshot: a Delete can remove the last
such key while the flag stays true — see the counterexample.) -/
theorem amended_iff_dirty {s : Map K V} (hre : Reachable s) :
    s.read.amended = true ↔ s.dirty.isSome = true := by
  rw [invAmended (reachable_inv hre)]

end SyncMap

namespace SyncMap

variable {K V : Type} [DecidableEq K] [DecidableEq V]

theorem missLocked_heap (s : Map K V) : (missLocked s).heap = s.heap := by
  have hdef : missLocked s =
      if s.misses + 1 < dirtySize s then { s with misses := s.misses + 1 }
      else { read := ⟨s.dirty.getD [], false⟩, dirty := none, misses := 0,
             heap := s.heap } := rfl
  rw [hdef]
  split_ifs <;> rfl

/-- C1: read-after-write: from any reachable state, a completed
`Store(k, v)` immediately followed by `Load(k)` returns `(v, true)`,
whether the store went through the lock-free read-snapshot path, an
unexpunged snapshot entry, the dirty map, or a fresh dirty insertion. -/
theorem store_then_load {s : Map K V} (hre : Reachable s) (k : K) (v : V)
    {s' : Map K V} (h : Store s k v = some s') :
    (Load s' k).1 = (some v, true) := by
  obtain ⟨hAm, hRV, hDV, hRN, hDN, hRF, hDF, hDE, hAg, hND⟩ :=
    reachable_inv hre
  unfold Store at h
  cases hl : lookupA s.read.m k with
  | some r =>
      simp only [hl] at h
      have hrlen : r < s.heap.length := hRV (k, r) (mem_of_lookupA hl)
      cases he : heapAt s.heap r with
      | nil =>
          simp only [he, Option.some.injEq] at h
          subst h
          unfold Load
          simp only [hl]
          unfold entryLoad
          rw [heapAt_set, if_pos ⟨rfl, hrlen⟩]
      | val w =>
          simp only [he, Option.some.injEq] at h
          subst h
          unfold Load
          simp only [hl]
          unfold entryLoad
          rw [heapAt_set, if_pos ⟨rfl, hrlen⟩]
      | expunged =>
          simp only [he] at h
          unfold storeSlow at h
          simp only [hl, he] at h
          cases hd : s.dirty with
          | none =>
              simp only [hd] at h
              exact absurd h (by simp)
          | some d =>
              simp only [hd, Option.some.injEq] at h
              subst h
              unfold Load
              simp only [hl]
              unfold entryLoad
              rw [List.set_set, heapAt_set, if_pos ⟨rfl, hrlen⟩]
  | none =>
      simp only [hl] at h
      unfold storeSlow at h
      simp only [hl] at h
      cases hld : lookupD s.dirty k with
      | some r =>
          simp only [hld, Option.some.injEq] at h
          subst h
          cases hd : s.dirty with
          | none =>
              rw [hd] at hld
              exact absurd hld (by simp [lookupD])
          | some d =>
              rw [hd] at hld
              simp only [lookupD] at hld
              have hmem := mem_of_lookupA hld
              have hrlen : r < s.heap.length :=
                hDV (k, r) (by simp [dirtyD, hd, hmem])
              have hamd : s.read.amended = true := by
                rw [hAm, hd]
                rfl
              unfold Load
              simp only [hl]
              rw [if_pos hamd]
              have hlk : lookupD (some d) k = some r := by
                simpa [lookupD] using hld
              simp only [hlk]
              rw [missLocked_heap]
              show entryLoad (s.heap.set r (.val v)) r = (some v, true)
              unfold entryLoad
              rw [heapAt_set, if_pos ⟨rfl, hrlen⟩]
      | none =>
          simp only [hld] at h
          by_cases ha : s.read.amended = true
          · rw [if_pos ha] at h
            cases hd : s.dirty with
            | none =>
                rw [hAm, hd] at ha
                simp at ha
            | some d =>
                simp only [hd, Option.some.injEq] at h
                subst h
                have hdk : lookupA d k = none := by
                  rw [hd] at hld
                  simpa [lookupD] using hld
                unfold Load
                simp only [hl]
                rw [if_pos ha]
                have hlk : lookupD (some (insertA d k s.heap.length)) k =
                    some s.heap.length := by
                  simp only [lookupD]
                  exact lookupA_insert_fresh hdk _
                simp only [hlk]
                rw [missLocked_heap]
                show entryLoad (s.heap ++ [.val v]) s.heap.length =
                  (some v, true)
                unfold entryLoad
                rw [heapAt_append_self]
          · rw [if_neg ha] at h
            have hd : s.dirty = none := by
              cases hd2 : s.dirty with
              | none => rfl
              | some d =>
                  rw [hAm, hd2] at ha
                  simp at ha
            unfold dirtyLocked at h
            simp only [hd, Option.some.injEq] at h
            subst h
            have hsub := dirtyFold_snd_sublist s.heap s.read.m
            have hknotin : k ∉ (dirtyFold s.heap s.read.m).2.map Prod.fst :=
              fun hm => (lookupA_eq_none.mp hl) ((hsub.map Prod.fst).subset hm)
            have hk0 : lookupA (dirtyFold s.heap s.read.m).2 k = none :=
              lookupA_eq_none.mpr hknotin
            unfold Load
            simp only [hl]
            rw [if_pos trivial]
            have hlk : lookupD (some (insertA (dirtyFold s.heap s.read.m).2 k
                (dirtyFold s.heap s.read.m).1.length)) k =
                some (dirtyFold s.heap s.read.m).1.length := by
              simp only [lookupD]
              exact lookupA_insert_fresh hk0 _
            simp only [hlk]
            rw [missLocked_heap]
            show entryLoad ((dirtyFold s.heap s.read.m).1 ++ [.val v])
              (dirtyFold s.heap s.read.m).1.length = (some v, true)
            unfold entryLoad
            rw [heapAt_append_self]

end SyncMap

namespace SyncMap

variable {K V : Type} [DecidableEq K] [DecidableEq V]

/-- C7: dirty superset invariant: in every reachable state with a non-nil
dirty map, the dirty map binds every snapshot key whose entry is not
tombstoned to that same entry; moreover a `Store(k, _)` completed from a
reachable state leaves `k` bound in the dirty map whenever the dirty map
is non-nil afterwards (so keys written since the last promotion are in
it). -/
theorem dirty_superset {s : Map K V} (hre : Reachable s) :
    (s.dirty.isSome = true → ∀ p ∈ s.read.m,
      heapAt s.heap p.2 ≠ .expunged → lookupA (dirtyD s) p.1 = some p.2) ∧
    (∀ (k : K) (v : V) (s' : Map K V), Store s k v = some s' →
      s'.dirty.isSome = true → ∃ r, lookupA (dirtyD s') k = some r) := by
  obtain ⟨hAm, hRV, hDV, hRN, hDN, hRF, hDF, hDE, hAg, hND⟩ :=
    reachable_inv hre
  constructor
  · intro hsome p hp hne
    exact (hAg hsome p hp).1 hne
  · intro k v s' h hsome'
    unfold Store at h
    cases hl : lookupA s.read.m k with
    | some r =>
        simp only [hl] at h
        cases he : heapAt s.heap r with
        | nil =>
            simp only [he, Option.some.injEq] at h
            subst h
            cases hd : s.dirty with
            | none => simp [hd] at hsome'
            | some d =>
                refine ⟨r, ?_⟩
                have hlk := (hAg (by rw [hd]; rfl) (k, r)
                  (mem_of_lookupA hl)).1 (by rw [he]; simp)
                simpa [dirtyD, hd] using hlk
        | val w =>
            simp only [he, Option.some.injEq] at h
            subst h
            cases hd : s.dirty with
            | none => simp [hd] at hsome'
            | some d =>
                refine ⟨r, ?_⟩
                have hlk := (hAg (by rw [hd]; rfl) (k, r)
                  (mem_of_lookupA hl)).1 (by rw [he]; simp)
                simpa [dirtyD, hd] using hlk
        | expunged =>
            simp only [he] at h
            unfold storeSlow at h
            simp only [hl, he] at h
            cases hd : s.dirty with
            | none =>
                simp only [hd] at h
                exact absurd h (by simp)
            | some d =>
                simp only [hd, Option.some.injEq] at h
                subst h
                have hkd : lookupA d k = none := by
                  have := (hAg (by rw [hd]; rfl) (k, r)
                    (mem_of_lookupA hl)).2 he
                  simpa [dirtyD, hd] using this
                refine ⟨r, ?_⟩
                simp only [dirtyD, Option.getD_some]
                exact lookupA_insert_fresh hkd r
    | none =>
        simp only [hl] at h
        unfold storeSlow at h
        simp only [hl] at h
        cases hld : lookupD s.dirty k with
        | some r =>
            simp only [hld, Option.some.injEq] at h
            subst h
            cases hd : s.dirty with
            | none =>
                rw [hd] at hld
                exact absurd hld (by simp [lookupD])
            | some d =>
                rw [hd] at hld
                simp only [lookupD] at hld
                exact ⟨r, by simpa [dirtyD, hd] using hld⟩
        | none =>
            simp only [hld] at h
            by_cases ha : s.read.amended = true
            · rw [if_pos ha] at h
              cases hd : s.dirty with
              | none =>
                  rw [hAm, hd] at ha
                  simp at ha
              | some d =>
                  simp only [hd, Option.some.injEq] at h
                  subst h
                  have hdk : lookupA d k = none := by
                    rw [hd] at hld
                    simpa [lookupD] using hld
                  refine ⟨s.heap.length, ?_⟩
                  simp only [dirtyD, Option.getD_some]
                  exact lookupA_insert_fresh hdk _
            · rw [if_neg ha] at h
              have hd : s.dirty = none := by
                cases hd2 : s.dirty with
                | none => rfl
                | some d =>
                    rw [hAm, hd2] at ha
                    simp at ha
              unfold dirtyLocked at h
              simp only [hd, Option.some.injEq] at h
              subst h
              have hsub := dirtyFold_snd_sublist s.heap s.read.m
              have hk0 : lookupA (dirtyFold s.heap s.read.m).2 k = none :=
                lookupA_eq_none.mpr (fun hm =>
                  (lookupA_eq_none.mp hl) ((hsub.map Prod.fst).subset hm))
              refine ⟨(dirtyFold s.heap s.read.m).1.length, ?_⟩
              simp only [dirtyD, Option.getD_some]
              exact lookupA_insert_fresh hk0 _

end SyncMap

namespace SyncMap

variable {K V : Type} [DecidableEq K] [DecidableEq V]

theorem rangeIter_eq_specVisit (h : List (EntryP V)) (f : K → V → Bool)
    (l : List (K × Nat)) :
    rangeIter h f l = specVisit f (presentPairs h l) := by
  induction l with
  | nil => simp [rangeIter, presentPairs, specVisit]
  | cons p rest ih =>
      obtain ⟨k, r⟩ := p
      cases he : heapAt h r with
      | nil => simp [rangeIter, presentPairs, he, ih]
      | expunged => simp [rangeIter, presentPairs, he, ih]
      | val v =>
          simp only [rangeIter, presentPairs, he, specVisit]
          by_cases hf : f k v = true
          · simp [hf, ih]
          · simp [hf]

theorem specVisit_all_true {f : K → V → Bool} (hf : ∀ k v, f k v = true)
    (l : List (K × V)) : specVisit f l = l := by
  induction l with
  | nil => rfl
  | cons p rest ih =>
      obtain ⟨k, v⟩ := p
      simp [specVisit, hf k v, ih]

theorem presentPairs_keys_sublist (h : List (EntryP V))
    (l : List (K × Nat)) :
    List.Sublist ((presentPairs h l).map Prod.fst) (l.map Prod.fst) := by
  induction l with
  | nil => simp [presentPairs]
  | cons p rest ih =>
      obtain ⟨k, r⟩ := p
      cases he : heapAt h r with
      | nil => simpa [presentPairs, he] using ih.cons k
      | expunged => simpa [presentPairs, he] using ih.cons k
      | val v => simpa [presentPairs, he] using ih.cons₂ k

theorem mem_presentPairs {h : List (EntryP V)} {l : List (K × Nat)}
    {k : K} {v : V} :
    (k, v) ∈ presentPairs h l ↔
      ∃ r, (k, r) ∈ l ∧ heapAt h r = .val v := by
  induction l with
  | nil => simp [presentPairs]
  | cons p rest ih =>
      obtain ⟨k', r'⟩ := p
      cases he : heapAt h r' with
      | nil =>
          simp only [presentPairs, he, ih]
          constructor
          · rintro ⟨r, hm, hv⟩
            exact ⟨r, List.mem_cons_of_mem _ hm, hv⟩
          · rintro ⟨r, hm, hv⟩
            rcases List.mem_cons.mp hm with h1 | h1
            · injection h1 with e1 e2
              rw [e2] at hv
              rw [hv] at he
              cases he
            · exact ⟨r, h1, hv⟩
      | expunged =>
          simp only [presentPairs, he, ih]
          constructor
          · rintro ⟨r, hm, hv⟩
            exact ⟨r, List.mem_cons_of_mem _ hm, hv⟩
          · rintro ⟨r, hm, hv⟩
            rcases List.mem_cons.mp hm with h1 | h1
            · injection h1 with e1 e2
              rw [e2] at hv
              rw [hv] at he
              cases he
            · exact ⟨r, h1, hv⟩
      | val w =>
          simp only [presentPairs, he, List.mem_cons, ih]
          constructor
          · rintro (h1 | ⟨r, hm, hv⟩)
            · injection h1 with e1 e2
              subst e1
              subst e2
              exact ⟨r', Or.inl rfl, he⟩
            · exact ⟨r, Or.inr hm, hv⟩
          · rintro ⟨r, hm, hv⟩
            rcases hm with h1 | h1
            · left
              injection h1 with e1 e2
              subst e1
              rw [e2] at hv
              rw [hv] at he
              injection he with e3
              rw [e3]
            · right
              exact ⟨r, h1, hv⟩

/-- C5: `Range` first promotes exactly when the snapshot is amended
(snapshot := dirty contents with amended = false, dirty := nil,
misses := 0); its visit sequence is the spec's iteration (visit each
present pair in order, stop right after the first `false`) over the
pairs of the resulting snapshot; and with a visitor that never stops it
visits every present key exactly once: the visited keys are distinct and
`(k, v)` is visited iff the map holds `k ↦ v`. -/
theorem range_spec {s : Map K V} (hre : Reachable s) (f : K → V → Bool) :
    ((Range s f).2 = if s.read.amended = true
      then { read := ⟨dirtyD s, false⟩, dirty := none, misses := 0,
             heap := s.heap }
      else s) ∧
    (Range s f).1 =
      specVisit f (presentPairs (Range s f).2.heap (Range s f).2.read.m) ∧
    ((∀ a b, f a b = true) →
      (((Range s f).1.map Prod.fst).Nodup ∧
        ∀ a b, ((a, b) ∈ (Range s f).1 ↔ mget (Range s f).2 a = some b))) := by
  have hs2 : Inv (Range s f).2 := inv_Range (reachable_inv hre) f
  have hAm := invAmended (reachable_inv hre)
  have h2eq : (Range s f).2 = if s.read.amended = true
      then { read := ⟨dirtyD s, false⟩, dirty := none, misses := 0,
             heap := s.heap }
      else s := rfl
  have hvis : (Range s f).1 =
      specVisit f (presentPairs (Range s f).2.heap (Range s f).2.read.m) :=
    rangeIter_eq_specVisit _ f _
  refine ⟨h2eq, hvis, ?_⟩
  intro hf
  have hd2 : (Range s f).2.dirty = none := by
    rw [h2eq]
    split_ifs with ha
    · rfl
    · cases hd : s.dirty with
      | none => rfl
      | some d =>
          rw [hAm, hd] at ha
          simp at ha
  have hvis2 : (Range s f).1 =
      presentPairs (Range s f).2.heap (Range s f).2.read.m := by
    rw [hvis, specVisit_all_true hf]
  have hnod : ((Range s f).2.read.m.map Prod.fst).Nodup := hs2.2.2.2.1
  constructor
  · rw [hvis2]
    exact (presentPairs_keys_sublist _ _).nodup hnod
  · intro a b
    rw [hvis2, mem_presentPairs]
    have hmg : mget (Range s f).2 a =
        (lookupA (Range s f).2.read.m a).bind (heapVal (Range s f).2.heap) := by
      rw [mget, hd2]
    rw [hmg]
    constructor
    · rintro ⟨r, hm, hv⟩
      have : lookupA (Range s f).2.read.m a = some r :=
        lookupA_of_mem hnod hm
      rw [this]
      simp [heapVal, hv]
    · intro hb
      cases hla : lookupA (Range s f).2.read.m a with
      | none =>
          rw [hla] at hb
          cases hb
      | some r =>
          rw [hla] at hb
          rw [show (some r).bind (heapVal (Range s f).2.heap) =
            heapVal (Range s f).2.heap r from rfl] at hb
          refine ⟨r, mem_of_lookupA hla, ?_⟩
          unfold heapVal at hb
          cases hc : heapAt (Range s f).2.heap r with
          | nil => rw [hc] at hb; cases hb
          | expunged => rw [hc] at hb; cases hb
          | val w =>
              rw [hc] at hb
              injection hb with e
              rw [e]

end SyncMap

namespace SyncMap

variable {K V : Type} [DecidableEq K] [DecidableEq V]

theorem heapVal_set_self {h : List (EntryP V)} {r : Nat}
    (hr : r < h.length) (v : V) :
    heapVal (h.set r (.val v)) r = some v := by
  unfold heapVal
  rw [heapAt_set, if_pos ⟨rfl, hr⟩]

theorem heapVal_append_self (h : List (EntryP V)) (v : V) :
    heapVal (h ++ [.val v]) h.length = some v := by
  unfold heapVal
  rw [heapAt_append_self]

theorem mget_missLocked {s : Map K V} {d : List (K × Nat)}
    (hd : s.dirty = some d) (k : K) :
    mget (missLocked s) k = mget s k := by
  have hdef : missLocked s =
      if s.misses + 1 < dirtySize s then { s with misses := s.misses + 1 }
      else { read := ⟨s.dirty.getD [], false⟩, dirty := none, misses := 0,
             heap := s.heap } := rfl
  rw [hdef]
  split_ifs with hc
  · rfl
  · simp [mget, hd]

/-- C3 (amended): `LoadOrStore(k, v)` from a reachable state always
completes (returns `some`); on a key with no present value it returns
`(v, false)` and afterwards `k` maps to `v`; on a key holding `w` it
returns `(w, true)` and leaves the logical contents of every key
unchanged — though not necessarily the physical state, which may record
a miss and promote (see the counterexample for the claim as stated). -/
theorem loadOrStore_spec {s : Map K V} (hre : Reachable s) (k : K) (v : V) :
    ∃ res : (Option V × Bool) × Map K V, LoadOrStore s k v = some res ∧
      (∀ w, mget s k = some w →
        res.1 = (some w, true) ∧ ∀ k', mget res.2 k' = mget s k') ∧
      (mget s k = none →
        res.1 = (some v, false) ∧ mget res.2 k = some v) := by
  obtain ⟨hAm, hRV, hDV, hRN, hDN, hRF, hDF, hDE, hAg, hND⟩ :=
    reachable_inv hre
  cases hl : lookupA s.read.m k with
  | some r =>
      have hmem := mem_of_lookupA hl
      have hrlen : r < s.heap.length := hRV (k, r) hmem
      cases he : heapAt s.heap r with
      | val w =>
          have ht : tryLoadOrStore s.heap r v =
              ((some w, true, true), s.heap) := by
            unfold tryLoadOrStore
            rw [he]
          have hLS : LoadOrStore s k v = some ((some w, true), s) := by
            unfold LoadOrStore
            simp only [hl, ht, if_true]
          have hmg : mget s k = some w := by
            cases hd : s.dirty with
            | none => simp [mget, hd, hl, heapVal, he]
            | some d =>
                have hlk := (hAg (by rw [hd]; rfl) (k, r) hmem).1
                  (by rw [he]; simp)
                rw [show dirtyD s = d from by simp [dirtyD, hd]] at hlk
                simp [mget, hd, hlk, heapVal, he]
          refine ⟨((some w, true), s), hLS, ?_, ?_⟩
          · intro w' hw'
            rw [hmg] at hw'
            injection hw' with e
            subst e
            exact ⟨rfl, fun k' => rfl⟩
          · intro h0
            rw [hmg] at h0
            cases h0
      | nil =>
          have ht : tryLoadOrStore s.heap r v =
              ((some v, false, true), s.heap.set r (.val v)) := by
            unfold tryLoadOrStore
            rw [he]
          have hLS : LoadOrStore s k v =
              some ((some v, false),
                { s with heap := s.heap.set r (.val v) }) := by
            unfold LoadOrStore
            simp only [hl, ht, if_true]
          have hmg : mget s k = none := by
            cases hd : s.dirty with
            | none => simp [mget, hd, hl, heapVal, he]
            | some d =>
                have hlk := (hAg (by rw [hd]; rfl) (k, r) hmem).1
                  (by rw [he]; simp)
                rw [show dirtyD s = d from by simp [dirtyD, hd]] at hlk
                simp [mget, hd, hlk, heapVal, he]
          refine ⟨_, hLS, ?_, ?_⟩
          · intro w' hw'
            rw [hmg] at hw'
            cases hw'
          · intro _
            refine ⟨rfl, ?_⟩
            cases hd : s.dirty with
            | none => simp [mget, hd, hl, heapVal_set_self hrlen]
            | some d =>
                have hlk := (hAg (by rw [hd]; rfl) (k, r) hmem).1
                  (by rw [he]; simp)
                rw [show dirtyD s = d from by simp [dirtyD, hd]] at hlk
                simp [mget, hd, hlk, heapVal_set_self hrlen]
      | expunged =>
          have hdx : ∃ d, s.dirty = some d := by
            cases hd2 : s.dirty with
            | some d => exact ⟨d, rfl⟩
            | none =>
                exact absurd he (hND (by rw [hd2]; rfl) (k, r) hmem)
          obtain ⟨d, hd⟩ := hdx
          have hkd : lookupA d k = none := by
            have := (hAg (by rw [hd]; rfl) (k, r) hmem).2 he
            simpa [dirtyD, hd] using this
          have ht : tryLoadOrStore s.heap r v =
              ((none, false, false), s.heap) := by
            unfold tryLoadOrStore
            rw [he]
          have ht2 : tryLoadOrStore (s.heap.set r .nil) r v =
              ((some v, false, true), (s.heap.set r .nil).set r (.val v)) := by
            unfold tryLoadOrStore
            rw [heapAt_set_nil_self]
          have hLS : LoadOrStore s k v =
              some ((some v, false),
                { s with dirty := some (insertA d k r),
                         heap := (s.heap.set r .nil).set r (.val v) }) := by
            unfold LoadOrStore
            simp only [hl, ht, Bool.false_eq_true, if_false]
            unfold loadOrStoreSlow
            simp only [hl, he, hd, ht2]
          have hmg : mget s k = none := by
            simp [mget, hd, hkd]
          refine ⟨_, hLS, ?_, ?_⟩
          · intro w' hw'
            rw [hmg] at hw'
            cases hw'
          · intro _
            refine ⟨rfl, ?_⟩
            have hins : lookupA (insertA d k r) k = some r :=
              lookupA_insert_fresh hkd r
            rw [List.set_set]
            simp [mget, hins, heapVal_set_self hrlen]
  | none =>
      cases hld : lookupD s.dirty k with
      | some r =>
          have hdx : ∃ d, s.dirty = some d := by
            cases hd2 : s.dirty with
            | some d => exact ⟨d, rfl⟩
            | none =>
                rw [hd2] at hld
                exact absurd hld (by simp [lookupD])
          obtain ⟨d, hd⟩ := hdx
          have hlkd : lookupA d k = some r := by
            rw [hd] at hld
            simpa [lookupD] using hld
          have hmemd : (k, r) ∈ d := mem_of_lookupA hlkd
          have hrlen : r < s.heap.length :=
            hDV (k, r) (by simp [dirtyD, hd, hmemd])
          have hne : heapAt s.heap r ≠ .expunged :=
            invDirtyNoExp ⟨hAm, hRV, hDV, hRN, hDN, hRF, hDF, hDE, hAg, hND⟩
              (k, r) (by simp [dirtyD, hd, hmemd])
          cases he : heapAt s.heap r with
          | expunged => exact absurd he hne
          | val w =>
              have ht : tryLoadOrStore s.heap r v =
                  ((some w, true, true), s.heap) := by
                unfold tryLoadOrStore
                rw [he]
              have hLS : LoadOrStore s k v =
                  some ((some w, true), missLocked s) := by
                unfold LoadOrStore
                simp only [hl]
                unfold loadOrStoreSlow
                simp only [hl, hld, ht]
              have hmg : mget s k = some w := by
                simp [mget, hd, hlkd, heapVal, he]
              refine ⟨_, hLS, ?_, ?_⟩
              · intro w' hw'
                rw [hmg] at hw'
                injection hw' with e
                subst e
                exact ⟨rfl, fun k' => mget_missLocked hd k'⟩
              · intro h0
                rw [hmg] at h0
                cases h0
          | nil =>
              have ht : tryLoadOrStore s.heap r v =
                  ((some v, false, true), s.heap.set r (.val v)) := by
                unfold tryLoadOrStore
                rw [he]
              have hLS : LoadOrStore s k v =
                  some ((some v, false),
                    missLocked { s with heap := s.heap.set r (.val v) }) := by
                unfold LoadOrStore
                simp only [hl]
                unfold loadOrStoreSlow
                simp only [hl, hld, ht]
              have hmg : mget s k = none := by
                simp [mget, hd, hlkd, heapVal, he]
              refine ⟨_, hLS, ?_, ?_⟩
              · intro w' hw'
                rw [hmg] at hw'
                cases hw'
              · intro _
                refine ⟨rfl, ?_⟩
                rw [mget_missLocked (d := d) (by simp [hd]) k]
                simp [mget, hd, hlkd, heapVal_set_self hrlen]
      | none =>
          by_cases ha : s.read.amended = true
          · have hdx : ∃ d, s.dirty = some d := by
              cases hd2 : s.dirty with
              | some d => exact ⟨d, rfl⟩
              | none =>
                  rw [hAm, hd2] at ha
                  simp at ha
            obtain ⟨d, hd⟩ := hdx
            have hkd : lookupA d k = none := by
              rw [hd] at hld
              simpa [lookupD] using hld
            have hLS : LoadOrStore s k v =
                some ((some v, false),
                  { s with dirty := some (insertA d k s.heap.length),
                           heap := s.heap ++ [.val v] }) := by
              unfold LoadOrStore
              simp only [hl]
              unfold loadOrStoreSlow
              have hld2 : lookupD (some d) k = none := by
                simpa [lookupD] using hkd
              simp only [hl, hd, hld2, if_pos ha]
            have hmg : mget s k = none := by
              simp [mget, hd, hkd]
            refine ⟨_, hLS, ?_, ?_⟩
            · intro w' hw'
              rw [hmg] at hw'
              cases hw'
            · intro _
              refine ⟨rfl, ?_⟩
              have hins : lookupA (insertA d k s.heap.length) k =
                  some s.heap.length := lookupA_insert_fresh hkd _
              simp [mget, hins, heapVal_append_self]
          · have hd : s.dirty = none := by
              cases hd2 : s.dirty with
              | none => rfl
              | some d =>
                  rw [hAm, hd2] at ha
                  simp at ha
            have hsub := dirtyFold_snd_sublist s.heap s.read.m
            have hk0 : lookupA (dirtyFold s.heap s.read.m).2 k = none :=
              lookupA_eq_none.mpr (fun hm =>
                (lookupA_eq_none.mp hl) ((hsub.map Prod.fst).subset hm))
            have hLS : LoadOrStore s k v =
                some ((some v, false),
                  { read := ⟨s.read.m, true⟩,
                    dirty := some (insertA (dirtyFold s.heap s.read.m).2 k
                      (dirtyFold s.heap s.read.m).1.length),
                    misses := s.misses,
                    heap := (dirtyFold s.heap s.read.m).1 ++ [.val v] }) := by
              unfold LoadOrStore
              simp only [hl]
              unfold loadOrStoreSlow
              simp only [hl, hld, if_neg ha]
              unfold dirtyLocked
              simp only [hd]
            have hmg : mget s k = none := by
              simp [mget, hd, hl]
            refine ⟨_, hLS, ?_, ?_⟩
            · intro w' hw'
              rw [hmg] at hw'
              cases hw'
            · intro _
              refine ⟨rfl, ?_⟩
              have hins : lookupA (insertA (dirtyFold s.heap s.read.m).2 k
                  (dirtyFold s.heap s.read.m).1.length) k =
                  some (dirtyFold s.heap s.read.m).1.length :=
                lookupA_insert_fresh hk0 _
              simp [mget, hins, heapVal_append_self]

end SyncMap

namespace SyncMap

variable {K V : Type} [DecidableEq K] [DecidableEq V]

/-- C9: no resurrection: in a reachable state whose dirty map still binds
`k` to an entry already deleted (state `nil`), let the next recorded miss
promote the dirty map, and let a wholly new key `k2` then be stored,
rebuilding the dirty structure: `k`'s old entry is expunged during that
rebuild, the rebuilt dirty map does not bind `k`, and `Load(k)` still
reports not-found. -/
theorem no_resurrection {s : Map K V} (hre : Reachable s)
    {d : List (K × Nat)} (hd : s.dirty = some d) {k : K} {r : Nat}
    (hk : lookupA d k = some r) (hdel : heapAt s.heap r = .nil)
    (hfire : ¬(s.misses + 1 < dirtySize s))
    {k2 : K} {v2 : V} {s2 : Map K V} (hk2 : lookupA d k2 = none)
    (hst : Store (missLocked s) k2 v2 = some s2) :
    (∀ d2, s2.dirty = some d2 → lookupA d2 k = none) ∧
    (Load s2 k).1 = (none, false) := by
  obtain ⟨hAm, hRV, hDV, hRN, hDN, hRF, hDF, hDE, hAg, hND⟩ :=
    reachable_inv hre
  have hDd : dirtyD s = d := by simp [dirtyD, hd]
  have hdn : (d.map Prod.fst).Nodup := by
    rw [← hDd]
    exact hDN
  have hdv : ∀ p ∈ d, p.2 < s.heap.length := fun p hp =>
    hDV p (by rw [hDd]; exact hp)
  have hML : missLocked s =
      { read := ⟨d, false⟩, dirty := none, misses := 0,
        heap := s.heap } := by
    have hdef : missLocked s =
        if s.misses + 1 < dirtySize s then { s with misses := s.misses + 1 }
        else { read := ⟨s.dirty.getD [], false⟩, dirty := none, misses := 0,
               heap := s.heap } := rfl
    rw [hdef, if_neg hfire, hd]
    rfl
  rw [hML] at hst
  have hSt2 : Store { read := ⟨d, false⟩, dirty := none, misses := 0,
                      heap := (s.heap : List (EntryP V)) } k2 v2 =
      some { read := ⟨d, true⟩,
             dirty := some (insertA (dirtyFold s.heap d).2 k2
               (dirtyFold s.heap d).1.length),
             misses := 0,
             heap := (dirtyFold s.heap d).1 ++ [.val v2] } := by
    unfold Store storeSlow dirtyLocked
    simp only [hk2, lookupD, Bool.false_eq_true, if_false]
  rw [hSt2, Option.some.injEq] at hst
  subst hst
  have hf2k : lookupA (dirtyFold s.heap d).2 k = none := by
    rw [dirtyFold_lookupA s.heap d hdn k, hk]
    simp [hdel, isVal]
  have hf2k2 : lookupA (dirtyFold s.heap d).2 k2 = none := by
    rw [dirtyFold_lookupA s.heap d hdn k2, hk2]
    rfl
  have hkk2 : ¬k2 = k := by
    intro he
    rw [he, hk] at hk2
    cases hk2
  constructor
  · intro d2 hd2
    rw [Option.some.injEq] at hd2
    rw [← hd2, insertA_of_lookup_none hf2k2, lookupA_append_none hf2k]
    simp [lookupA, hkk2]
  · unfold Load
    simp only [hk]
    have hrlt : r < (dirtyFold s.heap d).1.length := by
      rw [dirtyFold_fst_length]
      exact hdv (k, r) (mem_of_lookupA hk)
    show entryLoad ((dirtyFold s.heap d).1 ++ [.val v2]) r = (none, false)
    unfold entryLoad
    rw [heapAt_append_lt hrlt, dirtyFold_heapAt s.heap d hdv r,
      if_pos ⟨hdel, List.mem_map.mpr ⟨(k, r), mem_of_lookupA hk, rfl⟩⟩]

end SyncMap

namespace SyncMap

/-- State reached from the zero map by `Store 0 100`: key 0 lives only in
the dirty map and the snapshot is amended. -/
def exStore : Map Nat Nat := ⟨⟨[], true⟩, some [(0, 0)], 0, [.val 100]⟩

/-- State reached by `Store 0 10; Delete 0`: the snapshot is still
amended although the dirty map is now empty. -/
def exDeleted : Map Nat Nat := ⟨⟨[], true⟩, some [], 0, [.val 10]⟩

/-- State reached by `Store 0 10; Load 1; Store 1 20; Delete 0; Load 5`:
the dirty map still binds key 0 to its deleted (`nil`) entry and the miss
counter is one miss short of promotion. -/
def exStale : Map Nat Nat :=
  ⟨⟨[(0, 0)], true⟩, some [(0, 0), (1, 1)], 1, [.nil, .val 20]⟩

/-- C3 counterexample: from the reachable state after `Store 0 100` the
call `LoadOrStore 0 200` returns the existing value `(100, true)` but
does not leave the whole map state unchanged: it records a miss and
promotes the dirty map, refuting the claim's unchanged-state clause. -/
theorem loadOrStore_changes_state :
    Reachable exStore ∧
    LoadOrStore exStore 0 200 =
      some ((some 100, true),
        ⟨⟨[(0, 0)], false⟩, none, 0, [.val 100]⟩) ∧
    (⟨⟨[(0, 0)], false⟩, none, 0, [.val 100]⟩ : Map Nat Nat) ≠ exStore :=
  ⟨⟨[.store 0 100], by decide⟩, by decide, by decide⟩

/-- C8 counterexample: the state after `Store 0 10; Delete 0` is
reachable and its snapshot is amended, yet its (empty, non-nil) dirty map
holds no key absent from the snapshot mapping, so amended = true is not
equivalent to the dirty map holding an extra key. -/
theorem amended_without_extra_key :
    Reachable exDeleted ∧
    ¬((exDeleted.read.amended = true) ↔
      (exDeleted.dirty ≠ none ∧
        ∃ p ∈ dirtyD exDeleted, lookupA exDeleted.read.m p.1 = none)) :=
  ⟨⟨[.store 0 10, .delete 0], by decide⟩, by decide⟩

theorem store_then_load_witness :
    (Load (⟨⟨[], true⟩, some [(0, 0)], 0, [.val 5]⟩ : Map Nat Nat) 0).1 =
      (some 5, true) :=
  store_then_load (s := initState) ⟨[], rfl⟩ 0 5 (by decide)

theorem loadOrStore_spec_witness :
    ∃ res : (Option Nat × Bool) × Map Nat Nat,
      LoadOrStore (initState : Map Nat Nat) 0 5 = some res ∧
      (∀ w, mget (initState : Map Nat Nat) 0 = some w →
        res.1 = (some w, true) ∧
        ∀ k', mget res.2 k' = mget (initState : Map Nat Nat) k') ∧
      (mget (initState : Map Nat Nat) 0 = none →
        res.1 = (some 5, false) ∧ mget res.2 0 = some 5) :=
  loadOrStore_spec ⟨[], rfl⟩ 0 5

theorem load_miss_promotion_witness :
    (Load exStore 1).2 = ⟨⟨[(0, 0)], false⟩, none, 0, [.val 100]⟩ :=
  (load_miss_promotion exStore 1 (by decide) (by decide)).2.2 (by decide)

theorem range_spec_witness :
    (Range exStore (fun _ _ => true)).1 =
      specVisit (fun _ _ => true)
        (presentPairs (Range exStore (fun _ _ => true)).2.heap
          (Range exStore (fun _ _ => true)).2.read.m) :=
  (range_spec ⟨[.store 0 100], by decide⟩ (fun _ _ => true)).2.1

theorem dirty_no_expunged_witness :
    heapAt exStore.heap 0 ≠ .expunged :=
  dirty_no_expunged_reachable ⟨[.store 0 100], by decide⟩ (0, 0) (by decide)

theorem dirty_superset_witness :
    ∃ r, lookupA (dirtyD (⟨⟨[], true⟩, some [(0, 0), (7, 1)], 0,
      [.val 100, .val 9]⟩ : Map Nat Nat)) 7 = some r :=
  (dirty_superset (s := exStore) ⟨[.store 0 100], by decide⟩).2 7 9
    ⟨⟨[], true⟩, some [(0, 0), (7, 1)], 0, [.val 100, .val 9]⟩
    (by decide) (by decide)

theorem amended_iff_dirty_witness :
    exStore.read.amended = true ↔ exStore.dirty.isSome = true :=
  amended_iff_dirty ⟨[.store 0 100], by decide⟩

theorem no_resurrection_witness :
    (Load (⟨⟨[(0, 0), (1, 1)], true⟩, some [(1, 1), (7, 2)], 0,
      [.expunged, .val 20, .val 99]⟩ : Map Nat Nat) 0).1 = (none, false) :=
  (@no_resurrection Nat Nat _ _ exStale
    ⟨[.store 0 10, .load 1, .store 1 20, .delete 0, .load 5], by decide⟩
    [(0, 0), (1, 1)] (by decide) 0 0 (by decide) (by decide) (by decide)
    7 99 ⟨⟨[(0, 0), (1, 1)], true⟩, some [(1, 1), (7, 2)], 0,
      [.expunged, .val 20, .val 99]⟩ (by decide) (by decide)).2

end SyncMap
